import Mathlib

/-!
Verification development for the woodster jigsaw solver repository.

The development shallowly embeds the two core modules of the repository:

* `src/models/board.py` — the `GameBoard` class (grid of cells holding
  `None`, the blocked marker `-1`, or an occupant tag produced by
  `hash(shape)`), its constructor validation, `can_place_shape`,
  `place_shape`, `remove_shape`, `clear` and the occupancy queries.
* `src/logic/solver.py` — the generator-based backtracking solver
  `solve_backtracking`, embedded as a function from the input piece
  multiset and board to the full list of yielded events.

The piece model (`src/models/piece.py`, class `PuzzlePiece`) is imported by
the solver and exercised by `tests/test_puzzle_piece.py`, but its source file
is not part of the repository snapshot; the canonicalization engine is
therefore modelled from the specification (see the `Modelled from the spec:`
doc comments below).

Python machine-level conventions used by the embedding:

* Python integers are unbounded, so `ℤ` models them exactly.
* A Python `frozenset[tuple[int, int]]` is a `Finset (ℤ × ℤ)`.
* `hash(shape)` is a pure, deterministic function of the frozenset's
  contents in CPython, and `hash` never returns `-1` (CPython reserves
  `-1` for error signalling).  It is modelled by `shapeHash`, an arbitrary
  fixed computable nonnegative function of the shape; no theorem below
  depends on the particular values, only on purity and on being distinct
  from the blocked marker `-1`.
-/

set_option autoImplicit false

namespace Woodster

/-- A cell position or offset: a `(row, col)` pair of Python ints. -/
abbrev Cell : Type := ℤ × ℤ

/-- A shape: Python `frozenset[tuple[int, int]]` of cell offsets. -/
abbrev Shape : Type := Finset Cell

/-- Model of CPython `hash` on a frozenset of int pairs: a fixed pure
function of the set's contents that never returns `-1` (CPython's `hash`
never returns `-1`).  The concrete values are irrelevant to every theorem
below; only purity and `shapeHash s ≠ -1` are used. -/
def shapeHash (s : Shape) : ℤ :=
  ((s.sum fun p => p.1.natAbs + 2 * p.2.natAbs + 1 : ℕ) : ℤ)

theorem shapeHash_nonneg (s : Shape) : 0 ≤ shapeHash s := Int.natCast_nonneg _

theorem shapeHash_ne_neg_one (s : Shape) : shapeHash s ≠ -1 := by
  intro h
  have := shapeHash_nonneg s
  omega

/-- Shallow embedding of `GameBoard` (src/models/board.py).  `cells` is the
row-major `list[list[int | None]]` grid: `none` = empty, `some (-1)` =
blocked marker, `some t` with `t ≠ -1` = occupant tag.  `blocked` is
`_blocked_cells`. -/
structure GameBoard where
  width : ℤ
  height : ℤ
  cells : List (List (Option ℤ))
  blocked : Finset Cell
deriving DecidableEq

/-- Errors raised by `GameBoard.__init__` (both are `ValueError` in Python;
the two distinct messages are modelled as two constructors). -/
inductive BoardError where
  | outOfRange
  | invalidBlockedCell
deriving DecidableEq

instance {ε α : Type} [DecidableEq ε] [DecidableEq α] : DecidableEq (Except ε α) :=
  fun x y =>
    match x, y with
    | .ok a, .ok b =>
        if h : a = b then .isTrue (by rw [h]) else .isFalse (by simpa using h)
    | .ok _, .error _ => .isFalse (by simp)
    | .error _, .ok _ => .isFalse (by simp)
    | .error e, .error f =>
        if h : e = f then .isTrue (by rw [h]) else .isFalse (by simpa using h)

/-- Grid lookup `self._cells[row][col]` for in-range nonnegative indices
(all reads in the embedded operations are bounds-checked before access;
out-of-range reads return `none` here). -/
def gridGet (g : List (List (Option ℤ))) (p : Cell) : Option ℤ :=
  (g.getD p.1.toNat []).getD p.2.toNat none

/-- `board.get_piece_at((row, col))` / direct `_cells[row][col]` read. -/
def get_piece_at (b : GameBoard) (p : Cell) : Option ℤ :=
  gridGet b.cells p

/-- The grid built by `GameBoard.__init__`: all-`None` except for the
blocked marker `-1` at each validated blocked cell.  The Python constructor
builds an all-`None` grid and then writes `-1` cell by cell; the grid is
built here pointwise, which yields the identical grid regardless of the
(irrelevant) set iteration order. -/
def mkGrid (bl : Finset Cell) (w h : ℕ) : List (List (Option ℤ)) :=
  (List.range h).map fun (r : ℕ) =>
    (List.range w).map fun (c : ℕ) =>
      if ((r : ℤ), (c : ℤ)) ∈ bl then some (-1) else none

/-- `GameBoard.__init__` (src/models/board.py lines 33-55). -/
def mkBoard (width height : ℤ) (blocked_cells : Finset Cell) :
    Except BoardError GameBoard :=
  if ¬ (1 ≤ width ∧ width ≤ 50) then .error .outOfRange
  else if ¬ (1 ≤ height ∧ height ≤ 50) then .error .outOfRange
  else if ∃ p ∈ blocked_cells, ¬ (0 ≤ p.1 ∧ p.1 < height ∧ 0 ≤ p.2 ∧ p.2 < width) then
    .error .invalidBlockedCell
  else .ok
    { width := width
      height := height
      cells := mkGrid blocked_cells width.toNat height.toNat
      blocked := blocked_cells }

/-- `GameBoard.can_place_shape` (src/models/board.py): every translated cell
is in bounds, not blocked, and not occupied by a piece (`None` or `-1`). -/
def can_place_shape (b : GameBoard) (shape : Shape) (position : Cell) : Bool :=
  decide (∀ off ∈ shape,
    0 ≤ position.1 + off.1 ∧ position.1 + off.1 < b.height ∧
    0 ≤ position.2 + off.2 ∧ position.2 + off.2 < b.width ∧
    (position.1 + off.1, position.2 + off.2) ∉ b.blocked ∧
    (gridGet b.cells (position.1 + off.1, position.2 + off.2) = none ∨
     gridGet b.cells (position.1 + off.1, position.2 + off.2) = some (-1)))

/-- Write `v` into one row at every column `c` with
`(r - pos.1, c - pos.2) ∈ shape`; `c0` is the column index of the row's
head.  Helper for the grid-mutation loops of `place_shape`/`remove_shape`. -/
def writeRow (shape : Shape) (pos : Cell) (v : Option ℤ) (r : ℤ) :
    ℤ → List (Option ℤ) → List (Option ℤ)
  | _, [] => []
  | c, old :: rest =>
      (if (r - pos.1, c - pos.2) ∈ shape then v else old)
        :: writeRow shape pos v r (c + 1) rest

/-- Write `v` at every grid position `pos + off` with `off ∈ shape`; `r0` is
the row index of the grid's first row.  This is the functional form of the
`for row_offset, col_offset in shape: self._cells[row][col] = v` loops; both
`place_shape` and `remove_shape` only run their loops when every translated
cell is in range, where the two formulations agree. -/
def writeGrid (shape : Shape) (pos : Cell) (v : Option ℤ) :
    ℤ → List (List (Option ℤ)) → List (List (Option ℤ))
  | _, [] => []
  | r, row :: rest => writeRow shape pos v r 0 row :: writeGrid shape pos v (r + 1) rest

/-- The grid mutation performed by a (precondition-satisfying) call of
`GameBoard.place_shape`: each translated cell receives the tag
`shape_hash = hash(shape)`. -/
def placeCells (b : GameBoard) (shape : Shape) (position : Cell) : GameBoard :=
  { b with cells := writeGrid shape position (some (shapeHash shape)) 0 b.cells }

/-- The grid mutation performed by a (precondition-satisfying) call of
`GameBoard.remove_shape`: each translated cell is reset to `None`. -/
def removeCells (b : GameBoard) (shape : Shape) (position : Cell) : GameBoard :=
  { b with cells := writeGrid shape position none 0 b.cells }

/-- `GameBoard.place_shape` (src/models/board.py lines 123-142): raises
`ValueError` when `can_place_shape` fails, otherwise writes `hash(shape)`
into every translated cell. -/
def place_shape (b : GameBoard) (shape : Shape) (position : Cell) :
    Except Unit GameBoard :=
  if can_place_shape b shape position then .ok (placeCells b shape position)
  else .error ()

/-- `GameBoard.remove_shape` (src/models/board.py lines 144-167): raises
`ValueError` unless every translated cell currently holds `hash(shape)`,
otherwise resets those cells to `None`. -/
def remove_shape (b : GameBoard) (shape : Shape) (position : Cell) :
    Except Unit GameBoard :=
  if ∀ off ∈ shape,
      gridGet b.cells (position.1 + off.1, position.2 + off.2) = some (shapeHash shape) then
    .ok (removeCells b shape position)
  else .error ()

/-- `GameBoard.clear`: every non-`-1` cell is reset to `None`. -/
def clear (b : GameBoard) : GameBoard :=
  { b with cells := b.cells.map fun row => row.map fun x =>
      if x = some (-1) then x else none }

/-- The set of all in-range grid positions of a board. -/
def gridCells (b : GameBoard) : Finset Cell :=
  (Finset.range b.height.toNat ×ˢ Finset.range b.width.toNat).image
    fun rc => ((rc.1 : ℤ), (rc.2 : ℤ))

/-- `GameBoard.get_occupied_cells`: positions whose cell is not `None`
(note: this includes blocked cells, whose grid entry is `-1`). -/
def get_occupied_cells (b : GameBoard) : Finset Cell :=
  (gridCells b).filter fun p => get_piece_at b p ≠ none

/-- `GameBoard.get_empty_cells`: positions whose cell is `None`. -/
def get_empty_cells (b : GameBoard) : Finset Cell :=
  (gridCells b).filter fun p => get_piece_at b p = none

/-- `GameBoard.get_blocked_cells` (returns a copy of `_blocked_cells`). -/
def get_blocked_cells (b : GameBoard) : Finset Cell :=
  b.blocked

theorem mem_gridCells {b : GameBoard} {p : Cell} :
    p ∈ gridCells b ↔ 0 ≤ p.1 ∧ p.1 < b.height ∧ 0 ≤ p.2 ∧ p.2 < b.width := by
  obtain ⟨a, c⟩ := p
  unfold gridCells
  simp only [Finset.mem_image, Finset.mem_product, Finset.mem_range, Prod.exists,
    Prod.mk.injEq]
  constructor
  · rintro ⟨r, s, ⟨hr, hs⟩, rfl, rfl⟩
    refine ⟨by positivity, ?_, by positivity, ?_⟩ <;> omega
  · rintro ⟨h1, h2, h3, h4⟩
    exact ⟨a.toNat, c.toNat, ⟨by omega, by omega⟩, by omega, by omega⟩

/-- Well-formedness of a board state: valid dimensions, a rectangular
`height × width` grid, in-range blocked cells, and the blocked marker `-1`
present at exactly the blocked positions. -/
def WfBoard (b : GameBoard) : Prop :=
  1 ≤ b.width ∧ b.width ≤ 50 ∧ 1 ≤ b.height ∧ b.height ≤ 50 ∧
  b.cells.length = b.height.toNat ∧
  (∀ row ∈ b.cells, row.length = b.width.toNat) ∧
  (∀ p ∈ b.blocked, p ∈ gridCells b) ∧
  (∀ p ∈ gridCells b, (get_piece_at b p = some (-1) ↔ p ∈ b.blocked))

instance (b : GameBoard) : Decidable (WfBoard b) := by
  unfold WfBoard; infer_instance

theorem writeRow_length (shape : Shape) (pos : Cell) (v : Option ℤ) (r : ℤ) :
    ∀ (c : ℤ) (l : List (Option ℤ)), (writeRow shape pos v r c l).length = l.length := by
  intro c l
  induction l generalizing c with
  | nil => rfl
  | cons x xs ih => simp [writeRow, ih]

theorem writeGrid_length (shape : Shape) (pos : Cell) (v : Option ℤ) :
    ∀ (r : ℤ) (g : List (List (Option ℤ))), (writeGrid shape pos v r g).length = g.length := by
  intro r g
  induction g generalizing r with
  | nil => rfl
  | cons row rest ih => simp [writeGrid, ih]

theorem writeRow_getD (shape : Shape) (pos : Cell) (v : Option ℤ) (r : ℤ) :
    ∀ (c : ℤ) (l : List (Option ℤ)) (j : ℕ), j < l.length →
      (writeRow shape pos v r c l).getD j none =
        if (r - pos.1, c + j - pos.2) ∈ shape then v else l.getD j none := by
  intro c l
  induction l generalizing c with
  | nil => intro j hj; simp at hj
  | cons x xs ih =>
    intro j hj
    cases j with
    | zero => simp [writeRow]
    | succ j =>
      simp only [writeRow, List.getD_cons_succ]
      rw [ih (c + 1) j (by simpa using hj)]
      have : c + 1 + (j : ℤ) = c + ((j : ℕ) + 1 : ℕ) := by push_cast; ring
      rw [this]

theorem writeGrid_getD (shape : Shape) (pos : Cell) (v : Option ℤ) :
    ∀ (r : ℤ) (g : List (List (Option ℤ))) (i : ℕ),
      (writeGrid shape pos v r g).getD i [] =
        writeRow shape pos v (r + i) 0 (g.getD i []) := by
  intro r g
  induction g generalizing r with
  | nil => intro i; simp [writeGrid, writeRow]
  | cons row rest ih =>
    intro i
    cases i with
    | zero => simp [writeGrid]
    | succ i =>
      simp only [writeGrid, List.getD_cons_succ]
      rw [ih (r + 1) i]
      have : r + 1 + (i : ℤ) = r + ((i : ℕ) + 1 : ℕ) := by push_cast; ring
      rw [this]

theorem gridGet_writeGrid (shape : Shape) (pos : Cell) (v : Option ℤ)
    (g : List (List (Option ℤ))) (p : Cell) (h1 : 0 ≤ p.1) (h3 : 0 ≤ p.2)
    (h4 : p.2.toNat < (g.getD p.1.toNat []).length) :
    gridGet (writeGrid shape pos v 0 g) p =
      if (p.1 - pos.1, p.2 - pos.2) ∈ shape then v else gridGet g p := by
  unfold gridGet
  rw [writeGrid_getD, writeRow_getD _ _ _ _ _ _ _ h4]
  have e1 : (0 : ℤ) + (p.1.toNat : ℤ) = p.1 := by omega
  have e2 : (0 : ℤ) + (p.2.toNat : ℤ) = p.2 := by omega
  rw [e1, e2]

theorem list_range_map_getD {α : Type} (n : ℕ) (f : ℕ → α) (d : α) (i : ℕ)
    (hi : i < n) : (((List.range n).map f).getD i d) = f i := by
  rw [List.getD_eq_getElem _ _ (by simpa using hi)]
  simp

theorem gridGet_mkGrid (bl : Finset Cell) (w h : ℕ) (p : Cell)
    (h1 : 0 ≤ p.1) (h2 : p.1 < h) (h3 : 0 ≤ p.2) (h4 : p.2 < w) :
    gridGet (mkGrid bl w h) p = (if p ∈ bl then some (-1) else none) := by
  unfold gridGet mkGrid
  rw [list_range_map_getD _ _ _ _ (by omega), list_range_map_getD _ _ _ _ (by omega)]
  have : ((p.1.toNat : ℤ), (p.2.toNat : ℤ)) = p := by
    obtain ⟨a, c⟩ := p
    simp only [Prod.mk.injEq]
    omega
  rw [this]

theorem mkBoard_wf {w h : ℤ} {bl : Finset Cell} {b : GameBoard}
    (hmk : mkBoard w h bl = .ok b) : WfBoard b := by
  unfold mkBoard at hmk
  split_ifs at hmk with hw hh hbl
  injection hmk with hmk
  subst hmk
  refine ⟨hw.1, hw.2, hh.1, hh.2, by simp [mkGrid], ?_, ?_, ?_⟩
  · intro row hrow
    simp only [mkGrid, List.mem_map, List.mem_range] at hrow
    obtain ⟨r, _, rfl⟩ := hrow
    simp
  · intro p hp
    push_neg at hbl
    rcases hbl p hp with ⟨hp1, hp2, hp3, hp4⟩
    exact mem_gridCells.mpr ⟨hp1, hp2, hp3, hp4⟩
  · intro p hp
    rcases mem_gridCells.mp hp with ⟨hp1, hp2, hp3, hp4⟩
    dsimp only at hp2 hp4
    unfold get_piece_at
    rw [gridGet_mkGrid bl w.toNat h.toNat p hp1 (by omega) hp3 (by omega)]
    split <;> simp_all

/-- Claim C9: `GameBoard` construction fails with an out-of-range error iff
width or height is outside `[1, 50]`; fails with an invalid-blocked-cell
error iff, with in-range dimensions, some blocked cell lies outside
`[0, height) × [0, width)`; otherwise construction succeeds. -/
theorem claim_C9 (w h : ℤ) (bl : Finset Cell) :
    (mkBoard w h bl = .error .outOfRange ↔
      ¬ (1 ≤ w ∧ w ≤ 50 ∧ 1 ≤ h ∧ h ≤ 50)) ∧
    (mkBoard w h bl = .error .invalidBlockedCell ↔
      ((1 ≤ w ∧ w ≤ 50 ∧ 1 ≤ h ∧ h ≤ 50) ∧
        ∃ p ∈ bl, ¬ (0 ≤ p.1 ∧ p.1 < h ∧ 0 ≤ p.2 ∧ p.2 < w))) ∧
    ((∃ b, mkBoard w h bl = .ok b) ↔
      ((1 ≤ w ∧ w ≤ 50 ∧ 1 ≤ h ∧ h ≤ 50) ∧
        ∀ p ∈ bl, 0 ≤ p.1 ∧ p.1 < h ∧ 0 ≤ p.2 ∧ p.2 < w)) := by
  by_cases hw : 1 ≤ w ∧ w ≤ 50
  · by_cases hh : 1 ≤ h ∧ h ≤ 50
    · by_cases hex : ∃ p ∈ bl, ¬ (0 ≤ p.1 ∧ p.1 < h ∧ 0 ≤ p.2 ∧ p.2 < w)
      · have e : mkBoard w h bl = .error .invalidBlockedCell := by
          unfold mkBoard
          rw [if_neg (not_not_intro hw), if_neg (not_not_intro hh), if_pos hex]
        rw [e]
        exact ⟨iff_of_false (by simp) (fun hc => hc ⟨hw.1, hw.2, hh.1, hh.2⟩),
          iff_of_true rfl ⟨⟨hw.1, hw.2, hh.1, hh.2⟩, hex⟩,
          iff_of_false (by simp) (fun hc => by
            obtain ⟨p, hp, hnp⟩ := hex
            exact hnp (hc.2 p hp))⟩
      · have e : mkBoard w h bl =
            .ok { width := w, height := h, cells := mkGrid bl w.toNat h.toNat,
                  blocked := bl } := by
          unfold mkBoard
          rw [if_neg (not_not_intro hw), if_neg (not_not_intro hh), if_neg hex]
        rw [e]
        exact ⟨iff_of_false (by simp) (fun hc => hc ⟨hw.1, hw.2, hh.1, hh.2⟩),
          iff_of_false (by simp) (fun hc => hex hc.2),
          iff_of_true ⟨_, rfl⟩ ⟨⟨hw.1, hw.2, hh.1, hh.2⟩,
            fun p hp => of_not_not (fun hc => hex ⟨p, hp, hc⟩)⟩⟩
    · have e : mkBoard w h bl = .error .outOfRange := by
        unfold mkBoard
        rw [if_neg (not_not_intro hw), if_pos hh]
      rw [e]
      exact ⟨iff_of_true rfl (fun hc => hh ⟨hc.2.2.1, hc.2.2.2⟩),
        iff_of_false (by simp) (fun hc => hh ⟨hc.1.2.2.1, hc.1.2.2.2⟩),
        iff_of_false (by simp) (fun hc => hh ⟨hc.1.2.2.1, hc.1.2.2.2⟩)⟩
  · have e : mkBoard w h bl = .error .outOfRange := by
      unfold mkBoard
      rw [if_pos hw]
    rw [e]
    exact ⟨iff_of_true rfl (fun hc => hw ⟨hc.1, hc.2.1⟩),
      iff_of_false (by simp) (fun hc => hw ⟨hc.1.1, hc.1.2.1⟩),
      iff_of_false (by simp) (fun hc => hw ⟨hc.1.1, hc.1.2.1⟩)⟩

theorem wf_getD_row_length {b : GameBoard} (hwf : WfBoard b) {i : ℕ}
    (hi : i < b.cells.length) : (b.cells.getD i []).length = b.width.toNat := by
  rw [List.getD_eq_getElem _ _ hi]
  exact hwf.2.2.2.2.2.1 _ (List.getElem_mem hi)

theorem wf_index_bounds {b : GameBoard} (hwf : WfBoard b) {p : Cell}
    (hp : p ∈ gridCells b) :
    0 ≤ p.1 ∧ 0 ≤ p.2 ∧ p.1.toNat < b.cells.length ∧
      p.2.toNat < (b.cells.getD p.1.toNat []).length := by
  rcases mem_gridCells.mp hp with ⟨h1, h2, h3, h4⟩
  have hlen : b.cells.length = b.height.toNat := hwf.2.2.2.2.1
  have hi : p.1.toNat < b.cells.length := by omega
  refine ⟨h1, h3, hi, ?_⟩
  rw [wf_getD_row_length hwf hi]
  omega

/-- Occupancy read after the grid-write loop, at any in-range position. -/
theorem get_piece_at_writeGrid {b : GameBoard} (hwf : WfBoard b) (s : Shape)
    (pos : Cell) (v : Option ℤ) {p : Cell} (hp : p ∈ gridCells b) :
    gridGet (writeGrid s pos v 0 b.cells) p =
      if (p.1 - pos.1, p.2 - pos.2) ∈ s then v else get_piece_at b p := by
  obtain ⟨h1, h3, _, h4⟩ := wf_index_bounds hwf hp
  exact gridGet_writeGrid s pos v b.cells p h1 h3 h4

theorem writeGrid_rows_length (s : Shape) (pos : Cell) (v : Option ℤ) (n : ℕ) :
    ∀ (r : ℤ) (g : List (List (Option ℤ))), (∀ row ∈ g, row.length = n) →
      ∀ row ∈ writeGrid s pos v r g, row.length = n := by
  intro r g
  induction g generalizing r with
  | nil => intro _ row hrow; simp [writeGrid] at hrow
  | cons x xs ih =>
    intro hg row hrow
    simp only [writeGrid, List.mem_cons] at hrow
    rcases hrow with rfl | h
    · rw [writeRow_length]
      exact hg x (by simp)
    · exact ih _ (fun q hq => hg q (by simp [hq])) row h

theorem wf_placeCells {b : GameBoard} {s : Shape} {pos : Cell} (hwf : WfBoard b)
    (hcan : can_place_shape b s pos = true) : WfBoard (placeCells b s pos) := by
  simp only [can_place_shape, decide_eq_true_eq] at hcan
  obtain ⟨hw1, hw2, hh1, hh2, hlen, hrows, hbs, hmk⟩ := hwf
  have hwf' : WfBoard b := ⟨hw1, hw2, hh1, hh2, hlen, hrows, hbs, hmk⟩
  refine ⟨hw1, hw2, hh1, hh2, ?_, ?_, hbs, ?_⟩
  · simpa [placeCells, writeGrid_length] using hlen
  · exact writeGrid_rows_length _ _ _ _ _ _ hrows
  · intro p hp
    have hp' : p ∈ gridCells b := hp
    have := get_piece_at_writeGrid hwf' s pos (some (shapeHash s)) hp'
    show gridGet (writeGrid s pos (some (shapeHash s)) 0 b.cells) p = some (-1) ↔ _
    rw [this]
    split_ifs with hmem
    · constructor
      · intro hv
        exact absurd (Option.some.inj hv) (shapeHash_ne_neg_one s)
      · intro hpb
        rcases hcan _ hmem with ⟨-, -, -, -, hnb, -⟩
        have : (pos.1 + (p.1 - pos.1), pos.2 + (p.2 - pos.2)) = p := by
          obtain ⟨a, c⟩ := p
          simp only [Prod.mk.injEq]
          constructor <;> ring
        rw [this] at hnb
        exact absurd hpb hnb
    · exact hmk p hp'

theorem wf_removeCells {b : GameBoard} {s : Shape} {pos : Cell} (hwf : WfBoard b)
    (hrem : ∀ off ∈ s,
      gridGet b.cells (pos.1 + off.1, pos.2 + off.2) = some (shapeHash s)) :
    WfBoard (removeCells b s pos) := by
  obtain ⟨hw1, hw2, hh1, hh2, hlen, hrows, hbs, hmk⟩ := hwf
  have hwf' : WfBoard b := ⟨hw1, hw2, hh1, hh2, hlen, hrows, hbs, hmk⟩
  refine ⟨hw1, hw2, hh1, hh2, ?_, ?_, hbs, ?_⟩
  · simpa [removeCells, writeGrid_length] using hlen
  · exact writeGrid_rows_length _ _ _ _ _ _ hrows
  · intro p hp
    have hp' : p ∈ gridCells b := hp
    have := get_piece_at_writeGrid hwf' s pos none hp'
    show gridGet (writeGrid s pos none 0 b.cells) p = some (-1) ↔ _
    rw [this]
    split_ifs with hmem
    · simp only [reduceCtorEq, false_iff]
      intro hpb
      have hv := hrem _ hmem
      have e : (pos.1 + (p.1 - pos.1), pos.2 + (p.2 - pos.2)) = p := by
        obtain ⟨a, c⟩ := p
        simp only [Prod.mk.injEq]
        constructor <;> ring
      rw [e] at hv
      have : get_piece_at b p = some (-1) := (hmk p hp').mpr hpb
      rw [show get_piece_at b p = gridGet b.cells p from rfl] at this
      rw [this] at hv
      exact shapeHash_ne_neg_one s (Option.some.inj hv).symm
    · exact hmk p hp'

theorem list_map_getD {α β : Type} (f : α → β) (l : List α) (d : β) (d' : α)
    (i : ℕ) (hi : i < l.length) : (l.map f).getD i d = f (l.getD i d') := by
  rw [List.getD_eq_getElem _ _ (by simpa using hi), List.getD_eq_getElem _ _ hi]
  simp

theorem get_piece_at_clear {b : GameBoard} (hwf : WfBoard b) {p : Cell}
    (hp : p ∈ gridCells b) :
    get_piece_at (clear b) p =
      if get_piece_at b p = some (-1) then some (-1) else none := by
  obtain ⟨h1, h3, hi, hj⟩ := wf_index_bounds hwf hp
  show gridGet _ p = _
  unfold clear gridGet
  rw [list_map_getD _ _ _ [] _ hi, list_map_getD _ _ _ none _ hj]
  show (if get_piece_at b p = some (-1) then get_piece_at b p else none) = _
  split_ifs with hv
  · exact hv
  · rfl

theorem wf_clear {b : GameBoard} (hwf : WfBoard b) : WfBoard (clear b) := by
  obtain ⟨hw1, hw2, hh1, hh2, hlen, hrows, hbs, hmk⟩ := hwf
  have hwf' : WfBoard b := ⟨hw1, hw2, hh1, hh2, hlen, hrows, hbs, hmk⟩
  refine ⟨hw1, hw2, hh1, hh2, by simpa [clear] using hlen, ?_, hbs, ?_⟩
  · intro row hrow
    simp only [clear, List.mem_map] at hrow
    obtain ⟨row0, hrow0, rfl⟩ := hrow
    simpa using hrows row0 hrow0
  · intro p hp
    have hp' : p ∈ gridCells b := hp
    show get_piece_at (clear b) p = some (-1) ↔ _
    rw [get_piece_at_clear hwf' hp']
    split_ifs with hv
    · simp only [true_iff]
      exact (hmk p hp').mp hv
    · simp only [reduceCtorEq, false_iff]
      intro hpb
      exact hv ((hmk p hp').mpr hpb)

/-- Board states reachable from a valid `GameBoard.__init__` by any sequence
of successful `place_shape` / `remove_shape` / `clear` calls. -/
inductive Reachable : GameBoard → Prop where
  | construct {w h : ℤ} {bl : Finset Cell} {b : GameBoard} :
      mkBoard w h bl = .ok b → Reachable b
  | placeStep {b b' : GameBoard} {s : Shape} {pos : Cell} :
      Reachable b → place_shape b s pos = .ok b' → Reachable b'
  | removeStep {b b' : GameBoard} {s : Shape} {pos : Cell} :
      Reachable b → remove_shape b s pos = .ok b' → Reachable b'
  | clearStep {b : GameBoard} : Reachable b → Reachable (clear b)

theorem wf_of_reachable {b : GameBoard} (h : Reachable b) : WfBoard b := by
  induction h with
  | construct hmk => exact mkBoard_wf hmk
  | placeStep _ hp ih =>
    unfold place_shape at hp
    split_ifs at hp with hcan
    injection hp with hp
    subst hp
    exact wf_placeCells ih hcan
  | removeStep _ hr ih =>
    unfold remove_shape at hr
    split_ifs at hr with hrem
    injection hr with hr
    subst hr
    exact wf_removeCells ih hrem
  | clearStep _ ih => exact wf_clear ih

theorem grid_ext {g g' : List (List (Option ℤ))} (hlen : g.length = g'.length)
    (hrow : ∀ i, i < g.length → (g.getD i []).length = (g'.getD i []).length)
    (hval : ∀ i j, i < g.length → j < (g.getD i []).length →
      (g.getD i []).getD j none = (g'.getD i []).getD j none) : g = g' := by
  apply List.ext_getElem hlen
  intro i h1 h2
  have hrl := hrow i h1
  rw [List.getD_eq_getElem _ _ h1, List.getD_eq_getElem _ _ h2] at hrl
  apply List.ext_getElem hrl
  intro j hj1 hj2
  have := hval i j h1 (by rwa [List.getD_eq_getElem _ _ h1])
  rwa [List.getD_eq_getElem _ _ h1, List.getD_eq_getElem _ _ h2,
    List.getD_eq_getElem _ _ hj1, List.getD_eq_getElem _ _ hj2] at this

/-- Placing and then removing the same `(shape, position)` pair restores the
cell grid exactly, provided the placement precondition held. -/
theorem place_remove_cells_eq {b : GameBoard} {s : Shape} {pos : Cell}
    (hwf : WfBoard b) (hcan : can_place_shape b s pos = true) :
    removeCells (placeCells b s pos) s pos = b := by
  have hcan' := hcan
  simp only [can_place_shape, decide_eq_true_eq] at hcan'
  show { b with
    cells := writeGrid s pos none 0 (writeGrid s pos (some (shapeHash s)) 0 b.cells) } = b
  have hs : writeGrid s pos none 0 (writeGrid s pos (some (shapeHash s)) 0 b.cells)
      = b.cells := by
    apply grid_ext
    · rw [writeGrid_length, writeGrid_length]
    · intro i hi
      rw [writeGrid_getD, writeRow_length, writeGrid_getD, writeRow_length]
    · intro i j hi hj
      rw [writeGrid_length, writeGrid_length] at hi
      rw [writeGrid_getD, writeGrid_getD] at hj ⊢
      rw [writeRow_length, writeRow_length] at hj
      rw [writeRow_getD _ _ _ _ _ _ _ (by rwa [writeRow_length]),
        writeRow_getD _ _ _ _ _ _ _ hj]
      by_cases hmem : ((0 : ℤ) + (i : ℤ) - pos.1, (0 : ℤ) + (j : ℤ) - pos.2) ∈ s
      · rw [if_pos hmem]
        rcases hcan' _ hmem with ⟨hb1, hb2, hb3, hb4, hnb, hv⟩
        have eq1 : pos.1 + ((0 : ℤ) + (i : ℤ) - pos.1) = (i : ℤ) := by ring
        have eq2 : pos.2 + ((0 : ℤ) + (j : ℤ) - pos.2) = (j : ℤ) := by ring
        dsimp only at hb1 hb2 hb3 hb4 hnb hv
        simp only [eq1, eq2] at hb1 hb2 hb3 hb4 hnb hv
        have hg : gridGet b.cells ((i : ℤ), (j : ℤ)) = (b.cells.getD i []).getD j none := by
          unfold gridGet
          simp
        rcases hv with hv | hv
        · rw [hg] at hv
          exact hv.symm
        · exfalso
          have hq : ((i : ℤ), (j : ℤ)) ∈ gridCells b := mem_gridCells.mpr
            ⟨by positivity, hb2, by positivity, hb4⟩
          exact hnb ((hwf.2.2.2.2.2.2.2 _ hq).mp hv)
      · rw [if_neg hmem, if_neg hmem]
  rw [hs]

/-- Fixture: the empty 2-wide, 1-tall board (`GameBoard(width=2, height=1)`). -/
def board2x1 : GameBoard := ⟨2, 1, [[none, none]], ∅⟩

/-- Fixture: a single-cell shape (monomino). -/
def monoShape : Shape := {((0 : ℤ), (0 : ℤ))}

/-- Fixture: the horizontal domino shape. -/
def dominoH : Shape := {((0 : ℤ), (0 : ℤ)), ((0 : ℤ), (1 : ℤ))}

/-- Fixture: the 1×1 board whose only cell is blocked. -/
def blockedBoard1 : GameBoard := ⟨1, 1, [[some (-1)]], {((0 : ℤ), (0 : ℤ))}⟩

/-- Claim C5: on any board of the program (any board reachable from a valid
construction), if `can_place_shape(shape, origin)` holds then `place_shape`
succeeds and an immediate `remove_shape` of the same `(shape, origin)`
succeeds and restores the board bit-for-bit. -/
theorem claim_C5 (b : GameBoard) (s : Shape) (pos : Cell) (hreach : Reachable b)
    (hcan : can_place_shape b s pos = true) :
    place_shape b s pos = .ok (placeCells b s pos) ∧
    remove_shape (placeCells b s pos) s pos = .ok b := by
  have hwf := wf_of_reachable hreach
  constructor
  · unfold place_shape
    rw [if_pos hcan]
  · have hguard : ∀ off ∈ s,
        gridGet (placeCells b s pos).cells
          (pos.1 + off.1, pos.2 + off.2) = some (shapeHash s) := by
      intro off hoff
      have hcan' := hcan
      simp only [can_place_shape, decide_eq_true_eq] at hcan'
      rcases hcan' off hoff with ⟨hb1, hb2, hb3, hb4, -, -⟩
      have hq : (pos.1 + off.1, pos.2 + off.2) ∈ gridCells b :=
        mem_gridCells.mpr ⟨hb1, hb2, hb3, hb4⟩
      have := get_piece_at_writeGrid hwf s pos (some (shapeHash s)) hq
      rw [show (placeCells b s pos).cells
          = writeGrid s pos (some (shapeHash s)) 0 b.cells from rfl, this]
      rw [if_pos (by simpa using hoff)]
    unfold remove_shape
    rw [if_pos hguard, place_remove_cells_eq hwf hcan]

theorem claim_C5_witness :
    place_shape board2x1 dominoH (0, 0) = .ok (placeCells board2x1 dominoH (0, 0)) ∧
    remove_shape (placeCells board2x1 dominoH (0, 0)) dominoH (0, 0) = .ok board2x1 :=
  claim_C5 board2x1 dominoH (0, 0)
    (Reachable.construct (show mkBoard 2 1 ∅ = .ok board2x1 by decide)) (by decide)

/-- Claim C3 (amended): on every reachable board, the occupied and empty
cell sets are disjoint and partition the grid, so their two sizes sum to
width×height; the blocked set is contained in the occupied set (blocked
cells are reported as occupied, since their grid entry `-1` is not `None`)
and disjoint from the empty set; and a blocked cell always holds the
blocked marker `-1`, never an occupant tag and never `None`. -/
theorem claim_C3_amended (b : GameBoard) (hreach : Reachable b) :
    get_occupied_cells b ∩ get_empty_cells b = ∅ ∧
    get_occupied_cells b ∪ get_empty_cells b = gridCells b ∧
    ((get_occupied_cells b).card : ℤ) + ((get_empty_cells b).card : ℤ)
      = b.width * b.height ∧
    get_blocked_cells b ⊆ get_occupied_cells b ∧
    get_blocked_cells b ∩ get_empty_cells b = ∅ ∧
    ∀ p ∈ get_blocked_cells b, get_piece_at b p = some (-1) := by
  have hwf := wf_of_reachable hreach
  obtain ⟨hw1, hw2, hh1, hh2, hlen, hrows, hbs, hmk⟩ := hwf
  refine ⟨?_, ?_, ?_, ?_, ?_, ?_⟩
  · ext p
    simp only [Finset.mem_inter, get_occupied_cells, get_empty_cells,
      Finset.mem_filter, Finset.not_mem_empty, iff_false]
    tauto
  · ext p
    simp only [Finset.mem_union, get_occupied_cells, get_empty_cells,
      Finset.mem_filter]
    tauto
  · have hsplit : ((gridCells b).filter fun q => get_piece_at b q = none).card +
        ((gridCells b).filter fun q => ¬ get_piece_at b q = none).card
          = (gridCells b).card :=
      Finset.filter_card_add_filter_neg_card_eq_card _
    have hemp : (get_empty_cells b).card
        = ((gridCells b).filter fun q => get_piece_at b q = none).card := rfl
    have hocc : (get_occupied_cells b).card
        = ((gridCells b).filter fun q => ¬ get_piece_at b q = none).card := rfl
    have hinj : Function.Injective (fun rc : ℕ × ℕ => ((rc.1 : ℤ), (rc.2 : ℤ))) := by
      rintro ⟨a1, a2⟩ ⟨b1, b2⟩ hab
      simp only [Prod.mk.injEq, Nat.cast_inj] at hab
      simp [Prod.mk.injEq, hab.1, hab.2]
    have hcard : (gridCells b).card = b.height.toNat * b.width.toNat := by
      unfold gridCells
      rw [Finset.card_image_of_injective _ hinj, Finset.card_product]
      simp
    have hgc : ((gridCells b).card : ℤ) = b.width * b.height := by
      rw [hcard]
      push_cast
      rw [Int.toNat_of_nonneg (by omega), Int.toNat_of_nonneg (by omega)]
      ring
    omega
  · intro p hp
    have hpg := hbs p hp
    have hval := (hmk p hpg).mpr hp
    simp only [get_occupied_cells, Finset.mem_filter]
    exact ⟨hpg, by simp [hval]⟩
  · ext p
    simp only [Finset.mem_inter, get_blocked_cells, get_empty_cells,
      Finset.mem_filter, Finset.not_mem_empty, iff_false]
    rintro ⟨hpb, -, hpe⟩
    rw [(hmk p (hbs p hpb)).mpr hpb] at hpe
    cases hpe
  · intro p hp
    exact (hmk p (hbs p hp)).mpr hp

theorem claim_C3_witness :
    get_occupied_cells blockedBoard1 ∩ get_empty_cells blockedBoard1 = ∅ ∧
    get_occupied_cells blockedBoard1 ∪ get_empty_cells blockedBoard1
      = gridCells blockedBoard1 ∧
    ((get_occupied_cells blockedBoard1).card : ℤ)
      + ((get_empty_cells blockedBoard1).card : ℤ)
      = blockedBoard1.width * blockedBoard1.height ∧
    get_blocked_cells blockedBoard1 ⊆ get_occupied_cells blockedBoard1 ∧
    get_blocked_cells blockedBoard1 ∩ get_empty_cells blockedBoard1 = ∅ ∧
    get_piece_at blockedBoard1 ((0 : ℤ), (0 : ℤ)) = some (-1) := by
  have h := claim_C3_amended blockedBoard1
    (Reachable.construct
      (show mkBoard 1 1 {((0 : ℤ), (0 : ℤ))} = .ok blockedBoard1 by decide))
  exact ⟨h.1, h.2.1, h.2.2.1, h.2.2.2.1, h.2.2.2.2.1, h.2.2.2.2.2 _ (by decide)⟩

theorem claim_C3_counterexample :
    mkBoard 1 1 {((0 : ℤ), (0 : ℤ))} = .ok blockedBoard1 ∧
    get_occupied_cells blockedBoard1 ∩ get_blocked_cells blockedBoard1 ≠ ∅ ∧
    (get_occupied_cells blockedBoard1).card + (get_empty_cells blockedBoard1).card
      + (get_blocked_cells blockedBoard1).card ≠ 1 * 1 := by decide

/-- Claim C4 (amended): a successful `place_shape` writes the tag
`hash(shape)` — a pure function of the shape alone, not a placement-fresh
value — into every translated cell; consequently any two successful
placements of the same shape (at any positions, on any reachable boards)
write identical tags. -/
theorem claim_C4_amended (b : GameBoard) (s : Shape) (pos : Cell)
    (hreach : Reachable b) (hcan : can_place_shape b s pos = true) :
    ∀ off ∈ s, get_piece_at (placeCells b s pos) (pos.1 + off.1, pos.2 + off.2)
      = some (shapeHash s) := by
  have hwf := wf_of_reachable hreach
  intro off hoff
  have hcan' := hcan
  simp only [can_place_shape, decide_eq_true_eq] at hcan'
  rcases hcan' off hoff with ⟨hb1, hb2, hb3, hb4, -, -⟩
  have hq : (pos.1 + off.1, pos.2 + off.2) ∈ gridCells b :=
    mem_gridCells.mpr ⟨hb1, hb2, hb3, hb4⟩
  have hval := get_piece_at_writeGrid hwf s pos (some (shapeHash s)) hq
  show gridGet (writeGrid s pos (some (shapeHash s)) 0 b.cells) _ = _
  rw [hval, if_pos (by simpa using hoff)]

theorem claim_C4_witness :
    get_piece_at (placeCells board2x1 monoShape (0, 0)) ((0 : ℤ), (0 : ℤ))
      = some (shapeHash monoShape) := by
  simpa using claim_C4_amended board2x1 monoShape (0, 0)
    (Reachable.construct (show mkBoard 2 1 ∅ = .ok board2x1 by decide))
    (by decide) (0, 0) (by decide)

theorem claim_C4_counterexample :
    can_place_shape board2x1 monoShape (0, 0) = true ∧
    can_place_shape (placeCells board2x1 monoShape (0, 0)) monoShape (0, 1) = true ∧
    get_piece_at (placeCells (placeCells board2x1 monoShape (0, 0)) monoShape (0, 1))
        (0, 0)
      = get_piece_at
          (placeCells (placeCells board2x1 monoShape (0, 0)) monoShape (0, 1))
          (0, 1) ∧
    get_piece_at (placeCells (placeCells board2x1 monoShape (0, 0)) monoShape (0, 1))
        (0, 0) ≠ none := by decide

/-- Modelled from the spec: the shape canonicalizer of the (missing)
`src/models/piece.py`.  The spec's 8 square symmetries are the four maps
`(r,c) ↦ (±r, ±c)` and the same four preceded by the swap `(r,c) ↦ (c,r)`.
A symmetry is encoded as `(swap, negate-row, negate-col)`. -/
abbrev Sym : Type := Bool × Bool × Bool

/-- Modelled from the spec: apply one of the 8 square symmetries to a cell:
optionally swap the coordinates, then optionally negate each. -/
def symApply (g : Sym) (p : Cell) : Cell :=
  let q : Cell := if g.1 then (p.2, p.1) else p
  ((if g.2.1 then -q.1 else q.1), (if g.2.2 then -q.2 else q.2))

/-- All 8 square symmetries, in the spec's order: the four sign choices
without the swap, then the four with it. -/
def allSyms : List Sym :=
  [(false, false, false), (false, true, false), (false, false, true),
   (false, true, true), (true, false, false), (true, true, false),
   (true, false, true), (true, true, true)]

/-- Composition of symmetries: `symApply (symMul g h) p = symApply g (symApply h p)`. -/
def symMul (g h : Sym) : Sym :=
  (xor g.1 h.1,
   xor g.2.1 (if g.1 then h.2.2 else h.2.1),
   xor g.2.2 (if g.1 then h.2.1 else h.2.2))

/-- Pointwise translation of a cell set. -/
def translateShape (v : Cell) (s : Finset Cell) : Finset Cell :=
  s.image fun p => (p.1 + v.1, p.2 + v.2)

/-- Pointwise application of a symmetry to a cell set. -/
def symShape (g : Sym) (s : Finset Cell) : Finset Cell :=
  s.image (symApply g)

/-- Minimum row of a cell set (0 for the empty set, which piece
construction rejects). -/
def minRowOf (s : Finset Cell) : ℤ :=
  if h : (s.image Prod.fst).Nonempty then (s.image Prod.fst).min' h else 0

/-- Minimum column of a cell set. -/
def minColOf (s : Finset Cell) : ℤ :=
  if h : (s.image Prod.snd).Nonempty then (s.image Prod.snd).min' h else 0

/-- Modelled from the spec: normalize a cell set by translating it so that
its minimum row and minimum column are both zero. -/
def normalize (s : Finset Cell) : Finset Cell :=
  s.image fun p => (p.1 - minRowOf s, p.2 - minColOf s)

/-- Modelled from the spec: the list of the 8 normalized transforms of a
cell set (before deduplication), in the spec's transform order. -/
def orientationList (s : Finset Cell) : List (Finset Cell) :=
  allSyms.map fun g => normalize (symShape g s)

/-- Modelled from the spec: the orientation set — the distinct normalized
shapes obtained from the 8 symmetries. -/
def orientationSet (s : Finset Cell) : Finset (Finset Cell) :=
  (orientationList s).toFinset

/-- The spec's shape comparison order on cells: by row, then by column. -/
def cellLe (p q : Cell) : Prop :=
  p.1 < q.1 ∨ (p.1 = q.1 ∧ p.2 ≤ q.2)

instance : DecidableRel cellLe := fun p q => by unfold cellLe; infer_instance

instance : IsTrans Cell cellLe :=
  ⟨fun a b c hab hbc => by unfold cellLe at *; omega⟩

instance : IsAntisymm Cell cellLe :=
  ⟨fun a b hab hba => by
    obtain ⟨a1, a2⟩ := a
    obtain ⟨b1, b2⟩ := b
    unfold cellLe at hab hba
    simp only [Prod.mk.injEq]
    omega⟩

instance : IsTotal Cell cellLe := ⟨fun a b => by unfold cellLe; omega⟩

/-- Maximum row of a cell set (0 for the empty set). -/
def maxRowOf (s : Finset Cell) : ℤ :=
  if h : (s.image Prod.fst).Nonempty then (s.image Prod.fst).max' h else 0

/-- Maximum column of a cell set (0 for the empty set). -/
def maxColOf (s : Finset Cell) : ℤ :=
  if h : (s.image Prod.snd).Nonempty then (s.image Prod.snd).max' h else 0

/-- The sorted sequence of `(row, col)` pairs of a shape, used by the spec
to compare shapes lexicographically: the cells of the shape enumerated in
row-major order over its bounding box. -/
def sortCells (s : Finset Cell) : List Cell :=
  (List.range ((maxRowOf s - minRowOf s + 1).toNat)).flatMap fun (dr : ℕ) =>
    (List.range ((maxColOf s - minColOf s + 1).toNat)).filterMap fun (dc : ℕ) =>
      if (minRowOf s + dr, minColOf s + dc) ∈ s
      then some (minRowOf s + (dr : ℤ), minColOf s + (dc : ℤ)) else none

/-- Strict lexicographic comparison of cell lists (Python list `<`). -/
def listLt : List Cell → List Cell → Bool
  | [], [] => false
  | [], _ :: _ => true
  | _ :: _, [] => false
  | p :: ps, q :: qs => if p = q then listLt ps qs else decide (cellLe p q)

/-- Strict comparison of shapes by their sorted cell sequences. -/
def shapeLt (s t : Finset Cell) : Bool :=
  listLt (sortCells s) (sortCells t)

/-- Fold selecting the `shapeLt`-least element (ties keep the earlier one). -/
def pickMinShape : Finset Cell → List (Finset Cell) → Finset Cell
  | acc, [] => acc
  | acc, x :: xs => pickMinShape (if shapeLt x acc then x else acc) xs

/-- Least element of a list of shapes (`∅` for the empty list, which cannot
arise from `orientationList`). -/
def pickMinList : List (Finset Cell) → Finset Cell
  | [] => ∅
  | x :: xs => pickMinShape x xs

/-- Modelled from the spec: the canonical representative — the
lexicographically smallest shape among the 8 normalized transforms,
comparing by the sorted sequence of `(row, col)` pairs. -/
def canonicalShape (s : Finset Cell) : Finset Cell :=
  pickMinList (orientationList s)

/-- Modelled from the spec: `PuzzlePiece` (missing `src/models/piece.py`) —
an immutable value holding the canonical shape computed at construction;
equality and hash delegate to the canonical shape. -/
structure PuzzlePiece where
  shape : Finset Cell
deriving DecidableEq

/-- Modelled from the spec: piece construction from a drawn cell set (the
caller rejects empty sets before construction). -/
def pieceOf (cells : Finset Cell) : PuzzlePiece :=
  ⟨canonicalShape cells⟩

/-- `PuzzlePiece.area`: the number of cells of the piece. -/
def PuzzlePiece.area (p : PuzzlePiece) : ℕ :=
  p.shape.card

/-- `PuzzlePiece.orientations`, as a deterministic list: the deduplicated
normalized transforms of the canonical shape.  Python iterates this
collection as a `set` (unspecified order); no claim depends on the order. -/
def PuzzlePiece.orients (p : PuzzlePiece) : List (Finset Cell) :=
  (orientationList p.shape).dedup

/-- Piece hash: delegates to the canonical shape's hash. -/
def pieceHash (p : PuzzlePiece) : ℤ :=
  shapeHash p.shape

theorem symApply_mul (g h : Sym) (p : Cell) :
    symApply (symMul g h) p = symApply g (symApply h p) := by
  obtain ⟨g1, g2, g3⟩ := g
  obtain ⟨h1, h2, h3⟩ := h
  obtain ⟨a, b⟩ := p
  cases g1 <;> cases g2 <;> cases g3 <;> cases h1 <;> cases h2 <;> cases h3 <;>
    simp [symApply, symMul]

theorem allSyms_mul_right_toFinset :
    ∀ g0 : Sym, (allSyms.map fun g => symMul g g0).toFinset = allSyms.toFinset := by
  decide

theorem symApply_add (g : Sym) (p v : Cell) :
    symApply g (p.1 + v.1, p.2 + v.2)
      = ((symApply g p).1 + (symApply g v).1, (symApply g p).2 + (symApply g v).2) := by
  obtain ⟨g1, g2, g3⟩ := g
  cases g1 <;> cases g2 <;> cases g3 <;> simp [symApply] <;> ring_nf <;> simp

theorem symShape_translate (g : Sym) (v : Cell) (s : Finset Cell) :
    symShape g (translateShape v s) = translateShape (symApply g v) (symShape g s) := by
  unfold symShape translateShape
  rw [Finset.image_image, Finset.image_image]
  congr 1
  funext p
  simp only [Function.comp_apply]
  exact symApply_add g p v

theorem symShape_symShape (g h : Sym) (s : Finset Cell) :
    symShape g (symShape h s) = symShape (symMul g h) s := by
  unfold symShape
  rw [Finset.image_image]
  congr 1
  funext p
  simp only [Function.comp_apply]
  exact (symApply_mul g h p).symm

theorem image_fst_translate (v : Cell) (s : Finset Cell) :
    (translateShape v s).image Prod.fst = (s.image Prod.fst).image (· + v.1) := by
  unfold translateShape
  rw [Finset.image_image, Finset.image_image]
  rfl

theorem image_snd_translate (v : Cell) (s : Finset Cell) :
    (translateShape v s).image Prod.snd = (s.image Prod.snd).image (· + v.2) := by
  unfold translateShape
  rw [Finset.image_image, Finset.image_image]
  rfl

theorem minRowOf_translate (v : Cell) (s : Finset Cell) (hs : s.Nonempty) :
    minRowOf (translateShape v s) = minRowOf s + v.1 := by
  unfold minRowOf
  have h1 : (s.image Prod.fst).Nonempty := hs.image _
  have h2 : ((translateShape v s).image Prod.fst).Nonempty := by
    rw [image_fst_translate]
    exact h1.image _
  rw [dif_pos h2, dif_pos h1]
  simp only [image_fst_translate]
  rw [Finset.min'_image (fun a b hab => add_le_add_right hab _ : Monotone (fun x : ℤ => x + v.1))]

theorem minColOf_translate (v : Cell) (s : Finset Cell) (hs : s.Nonempty) :
    minColOf (translateShape v s) = minColOf s + v.2 := by
  unfold minColOf
  have h1 : (s.image Prod.snd).Nonempty := hs.image _
  have h2 : ((translateShape v s).image Prod.snd).Nonempty := by
    rw [image_snd_translate]
    exact h1.image _
  rw [dif_pos h2, dif_pos h1]
  simp only [image_snd_translate]
  rw [Finset.min'_image (fun a b hab => add_le_add_right hab _ : Monotone (fun x : ℤ => x + v.2))]

theorem normalize_translate (v : Cell) (s : Finset Cell) :
    normalize (translateShape v s) = normalize s := by
  rcases s.eq_empty_or_nonempty with rfl | hs
  · simp [translateShape, normalize]
  · unfold normalize
    rw [minRowOf_translate v s hs, minColOf_translate v s hs]
    unfold translateShape
    rw [Finset.image_image]
    congr 1
    funext p
    simp only [Function.comp_apply, Prod.mk.injEq]
    exact ⟨by ring, by ring⟩

theorem orientationList_translate (v : Cell) (s : Finset Cell) :
    orientationList (translateShape v s) = orientationList s := by
  unfold orientationList
  have e : (fun g => normalize (symShape g (translateShape v s)))
      = fun g => normalize (symShape g s) := by
    funext g
    rw [symShape_translate, normalize_translate]
  rw [e]

theorem canonicalShape_translate (v : Cell) (s : Finset Cell) :
    canonicalShape (translateShape v s) = canonicalShape s := by
  unfold canonicalShape
  rw [orientationList_translate]

theorem listLt_irrefl : ∀ l, listLt l l = false := by
  intro l
  induction l with
  | nil => rfl
  | cons p ps ih => simp [listLt, ih]

theorem listLt_trans : ∀ a b c, listLt a b = true → listLt b c = true →
    listLt a c = true := by
  intro a
  induction a with
  | nil =>
    intro b c hab hbc
    cases b <;> cases c <;> simp_all [listLt]
  | cons p ps ih =>
    intro b c hab hbc
    cases b with
    | nil => simp [listLt] at hab
    | cons q qs =>
      cases c with
      | nil => simp [listLt] at hbc
      | cons r rs =>
        simp only [listLt] at hab hbc ⊢
        by_cases hpq : p = q
        · subst hpq
          rw [if_pos rfl] at hab
          by_cases hpr : p = r
          · subst hpr
            rw [if_pos rfl] at hbc ⊢
            exact ih qs rs hab hbc
          · rw [if_neg hpr] at hbc ⊢
            exact hbc
        · rw [if_neg hpq] at hab
          by_cases hqr : q = r
          · subst hqr
            rw [if_neg hpq]
            exact hab
          · rw [if_neg hqr] at hbc
            by_cases hpr : p = r
            · exfalso
              subst hpr
              simp only [decide_eq_true_eq] at hab hbc
              exact hpq (antisymm hab hbc)
            · rw [if_neg hpr]
              simp only [decide_eq_true_eq] at hab hbc ⊢
              exact IsTrans.trans p q r hab hbc

theorem eq_of_listLt_false : ∀ a b, listLt a b = false → listLt b a = false →
    a = b := by
  intro a
  induction a with
  | nil =>
    intro b h1 h2
    cases b with
    | nil => rfl
    | cons q qs => simp [listLt] at h1
  | cons p ps ih =>
    intro b h1 h2
    cases b with
    | nil => simp [listLt] at h2
    | cons q qs =>
      simp only [listLt] at h1 h2
      by_cases hpq : p = q
      · subst hpq
        rw [if_pos rfl] at h1 h2
        rw [ih qs h1 h2]
      · exfalso
        rw [if_neg hpq] at h1
        rw [if_neg (fun h => hpq h.symm)] at h2
        simp only [decide_eq_false_iff_not] at h1 h2
        rcases total_of cellLe p q with h | h
        · exact h1 h
        · exact h2 h

theorem shapeLt_irrefl (s : Finset Cell) : shapeLt s s = false :=
  listLt_irrefl _

theorem shapeLt_trans {a b c : Finset Cell} (h1 : shapeLt a b = true)
    (h2 : shapeLt b c = true) : shapeLt a c = true :=
  listLt_trans _ _ _ h1 h2

theorem minRowOf_le {s : Finset Cell} {p : Cell} (hp : p ∈ s) :
    minRowOf s ≤ p.1 := by
  unfold minRowOf
  rw [dif_pos ⟨p.1, Finset.mem_image_of_mem _ hp⟩]
  exact Finset.min'_le _ _ (Finset.mem_image_of_mem _ hp)

theorem le_maxRowOf {s : Finset Cell} {p : Cell} (hp : p ∈ s) :
    p.1 ≤ maxRowOf s := by
  unfold maxRowOf
  rw [dif_pos ⟨p.1, Finset.mem_image_of_mem _ hp⟩]
  exact Finset.le_max' _ _ (Finset.mem_image_of_mem _ hp)

theorem minColOf_le {s : Finset Cell} {p : Cell} (hp : p ∈ s) :
    minColOf s ≤ p.2 := by
  unfold minColOf
  rw [dif_pos ⟨p.2, Finset.mem_image_of_mem _ hp⟩]
  exact Finset.min'_le _ _ (Finset.mem_image_of_mem _ hp)

theorem le_maxColOf {s : Finset Cell} {p : Cell} (hp : p ∈ s) :
    p.2 ≤ maxColOf s := by
  unfold maxColOf
  rw [dif_pos ⟨p.2, Finset.mem_image_of_mem _ hp⟩]
  exact Finset.le_max' _ _ (Finset.mem_image_of_mem _ hp)

theorem mem_sortCells {s : Finset Cell} {p : Cell} :
    p ∈ sortCells s ↔ p ∈ s := by
  unfold sortCells
  simp only [List.mem_flatMap, List.mem_filterMap, List.mem_range]
  constructor
  · rintro ⟨dr, -, dc, -, hp⟩
    split_ifs at hp with hmem
    · injection hp with hp
      rw [← hp]
      exact hmem
  · intro hp
    refine ⟨(p.1 - minRowOf s).toNat, ?_, (p.2 - minColOf s).toNat, ?_, ?_⟩
    · have h1 := minRowOf_le hp
      have h2 := le_maxRowOf hp
      omega
    · have h1 := minColOf_le hp
      have h2 := le_maxColOf hp
      omega
    · have h1 := minRowOf_le hp
      have h3 := minColOf_le hp
      have e : (minRowOf s + ((p.1 - minRowOf s).toNat : ℤ),
          minColOf s + ((p.2 - minColOf s).toNat : ℤ)) = p := by
        obtain ⟨a, b⟩ := p
        simp only [Prod.mk.injEq]
        constructor <;> omega
      rw [e, if_pos hp]

theorem sortCells_toFinset (s : Finset Cell) : (sortCells s).toFinset = s := by
  ext p
  simp only [List.mem_toFinset, mem_sortCells]

theorem eq_of_shapeLt_false {a b : Finset Cell} (h1 : shapeLt a b = false)
    (h2 : shapeLt b a = false) : a = b := by
  have hs := eq_of_listLt_false _ _ h1 h2
  have h := congrArg List.toFinset hs
  rwa [sortCells_toFinset, sortCells_toFinset] at h

theorem pickMinShape_mem : ∀ (l : List (Finset Cell)) (acc : Finset Cell),
    pickMinShape acc l = acc ∨ pickMinShape acc l ∈ l := by
  intro l
  induction l with
  | nil => intro acc; left; rfl
  | cons x xs ih =>
    intro acc
    simp only [pickMinShape]
    rcases ih (if shapeLt x acc then x else acc) with h | h
    · rw [h]
      split_ifs with hx
      · right; simp
      · left; rfl
    · right
      simp [h]

theorem pickMinShape_not_lt : ∀ (l : List (Finset Cell)) (acc y : Finset Cell),
    (y = acc ∨ y ∈ l) → shapeLt y (pickMinShape acc l) = false := by
  intro l
  induction l with
  | nil =>
    intro acc y hy
    rcases hy with rfl | hy
    · exact shapeLt_irrefl y
    · simp at hy
  | cons x xs ih =>
    intro acc y hy
    simp only [pickMinShape]
    have hres : shapeLt (if shapeLt x acc then x else acc)
        (pickMinShape (if shapeLt x acc then x else acc) xs) = false :=
      ih _ _ (Or.inl rfl)
    by_cases hx : shapeLt x acc = true
    · rw [if_pos hx] at hres ⊢
      rcases hy with rfl | hy
      · cases hcon : shapeLt y (pickMinShape x xs) with
        | false => rfl
        | true => exact absurd (shapeLt_trans hx hcon) (by simp [hres])
      · simp only [List.mem_cons] at hy
        rcases hy with rfl | hy
        · exact hres
        · exact ih x y (Or.inr hy)
    · rw [if_neg hx] at hres ⊢
      have hx' : shapeLt x acc = false := by simpa using hx
      rcases hy with rfl | hy
      · exact hres
      · simp only [List.mem_cons] at hy
        rcases hy with rfl | hy
        · cases hcon : shapeLt y (pickMinShape acc xs) with
          | false => rfl
          | true =>
            exfalso
            cases hax : shapeLt acc y with
            | true => exact absurd (shapeLt_trans hax hcon) (by simp [hres])
            | false =>
              have hay : acc = y := eq_of_shapeLt_false hax hx'
              subst hay
              exact absurd hcon (by simp [hres])
        · exact ih acc y (Or.inr hy)

theorem pickMinList_eq_of_toFinset_eq {l1 l2 : List (Finset Cell)}
    (h1 : l1 ≠ []) (h2 : l2 ≠ []) (hset : l1.toFinset = l2.toFinset) :
    pickMinList l1 = pickMinList l2 := by
  cases l1 with
  | nil => exact absurd rfl h1
  | cons x xs =>
    cases l2 with
    | nil => exact absurd rfl h2
    | cons y ys =>
      simp only [pickMinList]
      have hm1 : pickMinShape x xs ∈ (y :: ys) := by
        have hmem : pickMinShape x xs ∈ (x :: xs) := by
          rcases pickMinShape_mem xs x with h | h
          · simp [h]
          · simp [h]
        have := List.mem_toFinset.mpr hmem
        rw [hset] at this
        exact List.mem_toFinset.mp this
      have hm2 : pickMinShape y ys ∈ (x :: xs) := by
        have hmem : pickMinShape y ys ∈ (y :: ys) := by
          rcases pickMinShape_mem ys y with h | h
          · simp [h]
          · simp [h]
        have := List.mem_toFinset.mpr hmem
        rw [← hset] at this
        exact List.mem_toFinset.mp this
      have hlt1 : shapeLt (pickMinShape x xs) (pickMinShape y ys) = false := by
        apply pickMinShape_not_lt ys y
        rcases List.mem_cons.mp hm1 with h | h
        · exact Or.inl h
        · exact Or.inr h
      have hlt2 : shapeLt (pickMinShape y ys) (pickMinShape x xs) = false := by
        apply pickMinShape_not_lt xs x
        rcases List.mem_cons.mp hm2 with h | h
        · exact Or.inl h
        · exact Or.inr h
      exact eq_of_shapeLt_false hlt1 hlt2

theorem list_toFinset_map {α β : Type} [DecidableEq α] [DecidableEq β]
    (f : α → β) (l : List α) : (l.map f).toFinset = l.toFinset.image f := by
  induction l with
  | nil => simp
  | cons x xs ih => simp [ih]

theorem orientationList_ne_nil (s : Finset Cell) : orientationList s ≠ [] := by
  simp [orientationList, allSyms]

theorem orientationList_symShape_toFinset (g0 : Sym) (s : Finset Cell) :
    (orientationList (symShape g0 s)).toFinset = (orientationList s).toFinset := by
  unfold orientationList
  have e : (allSyms.map fun g => normalize (symShape g (symShape g0 s)))
      = (allSyms.map fun g => symMul g g0).map fun k => normalize (symShape k s) := by
    rw [List.map_map]
    congr 1
    funext g
    simp only [Function.comp_apply]
    rw [symShape_symShape]
  rw [e, list_toFinset_map, allSyms_mul_right_toFinset g0, ← list_toFinset_map]

theorem canonicalShape_symShape (g0 : Sym) (s : Finset Cell) :
    canonicalShape (symShape g0 s) = canonicalShape s :=
  pickMinList_eq_of_toFinset_eq (orientationList_ne_nil _) (orientationList_ne_nil _)
    (orientationList_symShape_toFinset g0 s)

/-- Claim C7: two non-empty cell sets that differ only by one of the 8
square symmetries (composed with an arbitrary translation, as in the spec's
examples) canonicalize to the same representative shape; the `PuzzlePiece`s
constructed from them are equal and hash identically. -/
theorem claim_C7 (s1 s2 : Finset Cell) (g : Sym) (v : Cell) (hne : s1.Nonempty)
    (heq : s2 = translateShape v (symShape g s1)) :
    canonicalShape s1 = canonicalShape s2 ∧ pieceOf s1 = pieceOf s2 ∧
    pieceHash (pieceOf s1) = pieceHash (pieceOf s2) := by
  have hc : canonicalShape s2 = canonicalShape s1 := by
    rw [heq, canonicalShape_translate, canonicalShape_symShape]
  refine ⟨hc.symm, ?_, ?_⟩
  · unfold pieceOf
    rw [hc]
  · unfold pieceHash pieceOf
    rw [hc]

/-- Fixture: the L-tromino as drawn in `tests/test_puzzle_piece.py`. -/
def shapeL : Finset Cell :=
  {((0 : ℤ), (0 : ℤ)), ((1 : ℤ), (0 : ℤ)), ((0 : ℤ), (1 : ℤ))}

/-- Fixture: the rotated L-tromino from the same test. -/
def shapeL2 : Finset Cell :=
  {((0 : ℤ), (0 : ℤ)), ((0 : ℤ), (1 : ℤ)), ((1 : ℤ), (1 : ℤ))}

theorem claim_C7_witness :
    canonicalShape shapeL = canonicalShape shapeL2 ∧
    pieceOf shapeL = pieceOf shapeL2 ∧
    pieceHash (pieceOf shapeL) = pieceHash (pieceOf shapeL2) :=
  claim_C7 shapeL shapeL2 (true, false, true) (0, 1) (by decide) (by decide)

/-- The four event types yielded by `solve_backtracking`. -/
inductive EventType where
  | place
  | remove
  | solved
  | noSolution
deriving DecidableEq

/-- One state dictionary yielded by the solver generator.  The Python
generator yields live references; the embedding records the values those
references hold at the moment of the yield. -/
structure Event where
  type : EventType
  board_snapshot : GameBoard
  placed_pieces : List (Shape × Cell × PuzzlePiece)
  remaining_pieces : List (PuzzlePiece × ℤ)
  step_count : ℕ
deriving DecidableEq

/-- Solver state: the single mutable state of `solve_backtracking`
(`board`, `placed`, `remaining`, `step_count`).  The remaining-pieces dict
is an insertion-ordered association list with unique keys, exactly the
observable behavior of a Python `dict`. -/
structure SolverState where
  board : GameBoard
  placed : List (Shape × Cell × PuzzlePiece)
  remaining : List (PuzzlePiece × ℤ)
  step_count : ℕ
deriving DecidableEq

/-- `d.get(k, dflt)` on the insertion-ordered dict. -/
def dictGet (d : List (PuzzlePiece × ℤ)) (k : PuzzlePiece) (dflt : ℤ) : ℤ :=
  match d.find? fun e => decide (e.1 = k) with
  | some e => e.2
  | none => dflt

/-- `d[k] = v` on the insertion-ordered dict: update in place if the key is
present, append at the end otherwise (Python dict semantics). -/
def dictSet (d : List (PuzzlePiece × ℤ)) (k : PuzzlePiece) (v : ℤ) :
    List (PuzzlePiece × ℤ) :=
  match d with
  | [] => [(k, v)]
  | e :: rest => if e.1 = k then (k, v) :: rest else e :: dictSet rest k v

/-- `del d[k]` on the insertion-ordered dict. -/
def dictDel (d : List (PuzzlePiece × ℤ)) (k : PuzzlePiece) :
    List (PuzzlePiece × ℤ) :=
  match d with
  | [] => []
  | e :: rest => if e.1 = k then rest else e :: dictDel rest k

/-- Event constructed from the current solver state. -/
def mkEvent (t : EventType) (st : SolverState) : Event :=
  ⟨t, st.board, st.placed, st.remaining, st.step_count⟩

/-- `find_next_empty` (src/logic/solver.py): first cell with
`get_piece_at = None` in left-to-right, top-to-bottom order. -/
def find_next_empty (b : GameBoard) : Option Cell :=
  (List.range b.height.toNat).findSome? fun (r : ℕ) =>
    (List.range b.width.toNat).findSome? fun (c : ℕ) =>
      if get_piece_at b ((r : ℤ), (c : ℤ)) = none then some ((r : ℤ), (c : ℤ))
      else none

/-- `min(orientation, key=lambda c: (c[0], c[1]))`: the lexicographically
smallest cell (head of the `cellLe`-sorted list; `(0, 0)` for the empty
shape, on which Python's `min` would raise — piece construction excludes
empty shapes). -/
def lexMinCell (s : Shape) : Cell :=
  (sortCells s).headD (0, 0)

/-- Stable insertion of a piece into a descending-area list: the inserted
element goes before the first element whose area does not exceed it. -/
def insertByAreaDesc (x : PuzzlePiece) : List PuzzlePiece → List PuzzlePiece
  | [] => [x]
  | y :: ys => if y.area ≤ x.area then x :: y :: ys else y :: insertByAreaDesc x ys

/-- `sorted(remaining.keys(), key=lambda p: p.area, reverse=True)`:
Python's stable descending sort by area, as a stable insertion sort. -/
def sortPiecesDesc (l : List PuzzlePiece) : List PuzzlePiece :=
  l.foldr insertByAreaDesc []

/-- Result of one (sub)run of the backtracking generator: the events
yielded, the boolean the recursive generator returns, and the solver state
on exit. -/
abbrev BTResult : Type := List Event × Bool × SolverState

/-- The solver's count decrement, `remaining[piece] = count - 1` followed by
`if remaining[piece] == 0: del remaining[piece]` (src/logic/solver.py lines
108-111). -/
def remDec (d : List (PuzzlePiece × ℤ)) (k : PuzzlePiece) (c : ℤ) :
    List (PuzzlePiece × ℤ) :=
  let rem1 := dictSet d k (c - 1)
  if dictGet rem1 k 0 = 0 then dictDel rem1 k else rem1

/-- The `for orientation in piece.orientations` loop body of `backtrack`
(src/logic/solver.py lines 102-139).  `recur` is the recursive `backtrack`
call.  On a successful `can_place_shape`: mutate board / placed / remaining
(deleting the count entry when it reaches zero), bump the step counter,
yield a `place` event and recurse; on recursive failure pop the placement
(the popped entry is the one just pushed — the recursive call restores the
stack; the unreachable empty-stack branch, where Python would raise
`IndexError`, returns failure), undo the board write, restore the count,
bump the counter, yield a `remove` event, and continue with the next
orientation.  `remove_shape`'s tag check passes here by stack discipline,
so the unchecked grid write `removeCells` is its exact effect. -/
def tryOrients (recur : SolverState → BTResult) (piece : PuzzlePiece) (count : ℤ)
    (cell : Cell) : List Shape → SolverState → BTResult
  | [], st => ([], false, st)
  | o :: os, st =>
      let tl := lexMinCell o
      let origin : Cell := (cell.1 - tl.1, cell.2 - tl.2)
      if can_place_shape st.board o origin then
        let st1 : SolverState :=
          ⟨placeCells st.board o origin, st.placed ++ [(o, origin, piece)],
            remDec st.remaining piece count, st.step_count + 1⟩
        let ev1 := mkEvent .place st1
        let r := recur st1
        if r.2.1 then (ev1 :: r.1, true, r.2.2)
        else
          match r.2.2.placed.getLast? with
          | none => (ev1 :: r.1, false, r.2.2)
          | some (shape, posn, p) =>
              let st3 : SolverState :=
                ⟨removeCells r.2.2.board shape posn, r.2.2.placed.dropLast,
                  dictSet r.2.2.remaining p (dictGet r.2.2.remaining p 0 + 1),
                  r.2.2.step_count + 1⟩
              let ev2 := mkEvent .remove st3
              let r' := tryOrients recur piece count cell os st3
              (ev1 :: r.1 ++ ev2 :: r'.1, r'.2.1, r'.2.2)
      else tryOrients recur piece count cell os st

/-- The `for piece in piece_types` loop of `backtrack` (src/logic/solver.py
lines 97-139): read the remaining count, skip pieces with count ≤ 0, and
otherwise try every orientation, threading the state. -/
def tryPieces (recur : SolverState → BTResult) (cell : Cell) :
    List PuzzlePiece → SolverState → BTResult
  | [], st => ([], false, st)
  | piece :: rest, st =>
      let count := dictGet st.remaining piece 0
      if count ≤ 0 then tryPieces recur cell rest st
      else
        let r := tryOrients recur piece count cell piece.orients st
        if r.2.1 then (r.1, true, r.2.2)
        else
          let r' := tryPieces recur cell rest r.2.2
          (r.1 ++ r'.1, r'.2.1, r'.2.2)

/-- The recursive `backtrack` generator (src/logic/solver.py lines 81-141),
embedded with a structural fuel argument.  Each recursive call in the
source happens immediately after a placement, which strictly decreases the
total of the positive remaining counts, and failed branches restore that
total; `solve_backtracking` therefore supplies fuel exceeding that total,
making the out-of-fuel branch unreachable (`backtrack_spec` proves the
fuel-sufficiency invariant). -/
def backtrack (pts : List PuzzlePiece) : ℕ → SolverState → BTResult
  | 0 => fun st => ([], false, st)
  | fuel + 1 => fun st =>
      match find_next_empty st.board with
      | none =>
          if st.remaining.isEmpty then
            let st1 : SolverState :=
              ⟨st.board, st.placed, st.remaining, st.step_count + 1⟩
            ([mkEvent .solved st1], true, st1)
          else ([], false, st)
      | some cell => tryPieces (backtrack pts fuel) cell pts st

/-- Total of the positive remaining counts: the solver's termination
measure, used as the fuel budget. -/
def posCount (d : List (PuzzlePiece × ℤ)) : ℕ :=
  (d.map fun e => e.2.toNat).sum

/-- `solve_backtracking` (src/logic/solver.py): the full event sequence the
generator yields for a piece multiset (insertion-ordered dict of piece →
count) and a board. -/
def solve_backtracking (pieces : List (PuzzlePiece × ℤ)) (board : GameBoard) :
    List Event :=
  let remaining := pieces
  let piece_types := sortPiecesDesc (remaining.map Prod.fst)
  if remaining.isEmpty then
    [⟨.solved, board, [], remaining, 0⟩]
  else
    let r := backtrack piece_types (posCount remaining + 1) ⟨board, [], remaining, 0⟩
    if r.2.1 then r.1 else r.1 ++ [mkEvent .noSolution r.2.2]

/-- Keys of the remaining-pieces dict, in insertion order. -/
def keysOf (d : List (PuzzlePiece × ℤ)) : List PuzzlePiece :=
  d.map Prod.fst

/-- Dict well-formedness: unique keys (guaranteed by Python `dict`). -/
def DictWf (d : List (PuzzlePiece × ℤ)) : Prop :=
  (keysOf d).Nodup

/-- All stored counts are ≥ 1 (the spec's `PieceMultiset` data model:
zero-count entries are absent, never stored). -/
def AllPos (d : List (PuzzlePiece × ℤ)) : Prop :=
  ∀ e ∈ d, 1 ≤ e.2

/-- Total of the stored counts. -/
def sumCounts (d : List (PuzzlePiece × ℤ)) : ℤ :=
  (d.map fun e => e.2).sum

/-- Two dicts with the same key multiset and the same lookup function. -/
def DictEquiv (d d' : List (PuzzlePiece × ℤ)) : Prop :=
  List.Perm (keysOf d) (keysOf d') ∧ ∀ k, dictGet d k 0 = dictGet d' k 0

instance (d : List (PuzzlePiece × ℤ)) : Decidable (DictWf d) := by
  unfold DictWf; infer_instance

instance (d : List (PuzzlePiece × ℤ)) : Decidable (AllPos d) := by
  unfold AllPos; infer_instance

theorem dictGet_nil (k : PuzzlePiece) (dflt : ℤ) : dictGet [] k dflt = dflt := rfl

theorem dictGet_cons (e : PuzzlePiece × ℤ) (rest : List (PuzzlePiece × ℤ))
    (k : PuzzlePiece) (dflt : ℤ) :
    dictGet (e :: rest) k dflt = if e.1 = k then e.2 else dictGet rest k dflt := by
  unfold dictGet
  rw [List.find?_cons]
  split_ifs with h <;> simp [h]

theorem dictGet_eq_of_notMem {d : List (PuzzlePiece × ℤ)} {k : PuzzlePiece}
    (h : k ∉ keysOf d) (dflt : ℤ) : dictGet d k dflt = dflt := by
  induction d with
  | nil => rfl
  | cons e rest ih =>
    simp only [keysOf, List.map_cons, List.mem_cons] at h
    push_neg at h
    rw [dictGet_cons, if_neg (fun hh => h.1 hh.symm)]
    exact ih (by simpa [keysOf] using h.2)

theorem mem_keys_of_dictGet_ne {d : List (PuzzlePiece × ℤ)} {k : PuzzlePiece}
    (h : dictGet d k 0 ≠ 0) : k ∈ keysOf d := by
  by_contra hk
  exact h (dictGet_eq_of_notMem hk 0)

theorem dictGet_set_self (d : List (PuzzlePiece × ℤ)) (k : PuzzlePiece) (v : ℤ) :
    dictGet (dictSet d k v) k 0 = v := by
  induction d with
  | nil => simp [dictSet, dictGet_cons]
  | cons e rest ih =>
    rw [dictSet]
    split_ifs with h
    · rw [dictGet_cons, if_pos rfl]
    · rw [dictGet_cons, if_neg h]
      exact ih

theorem dictGet_set_ne (d : List (PuzzlePiece × ℤ)) (k k' : PuzzlePiece) (v : ℤ)
    (h : k' ≠ k) (dflt : ℤ) :
    dictGet (dictSet d k v) k' dflt = dictGet d k' dflt := by
  induction d with
  | nil =>
    rw [dictSet, dictGet_cons, dictGet_nil, if_neg (fun hh => h hh.symm)]
  | cons e rest ih =>
    rw [dictSet]
    split_ifs with he
    · rw [dictGet_cons, dictGet_cons, if_neg (fun hh => h hh.symm),
        if_neg (fun hh => h (hh.symm.trans he))]
    · rw [dictGet_cons, dictGet_cons, ih]

theorem keysOf_set_mem {d : List (PuzzlePiece × ℤ)} {k : PuzzlePiece} (v : ℤ)
    (h : k ∈ keysOf d) : keysOf (dictSet d k v) = keysOf d := by
  induction d with
  | nil => simp [keysOf] at h
  | cons e rest ih =>
    rw [dictSet]
    split_ifs with he
    · simp [keysOf, he]
    · simp only [keysOf, List.map_cons, List.cons.injEq, true_and]
      apply ih
      simp only [keysOf, List.map_cons, List.mem_cons] at h
      rcases h with h | h
      · exact absurd h.symm he
      · exact h

theorem keysOf_set_notMem {d : List (PuzzlePiece × ℤ)} {k : PuzzlePiece} (v : ℤ)
    (h : k ∉ keysOf d) : keysOf (dictSet d k v) = keysOf d ++ [k] := by
  induction d with
  | nil => simp [dictSet, keysOf]
  | cons e rest ih =>
    simp only [keysOf, List.map_cons, List.mem_cons] at h
    push_neg at h
    rw [dictSet, if_neg (fun hh => h.1 hh.symm)]
    simp only [keysOf, List.map_cons, List.cons_append, List.cons.injEq, true_and]
    exact ih (by simpa [keysOf] using h.2)

theorem dictDel_dictSet (d : List (PuzzlePiece × ℤ)) (k : PuzzlePiece) (v : ℤ) :
    dictDel (dictSet d k v) k = dictDel d k := by
  induction d with
  | nil => simp [dictSet, dictDel]
  | cons e rest ih =>
    rw [dictSet]
    split_ifs with he
    · rw [dictDel, if_pos rfl, dictDel, if_pos he]
    · rw [dictDel, if_neg he, dictDel, if_neg he, ih]

theorem keysOf_del (d : List (PuzzlePiece × ℤ)) (k : PuzzlePiece) :
    keysOf (dictDel d k) = (keysOf d).erase k := by
  induction d with
  | nil => simp [dictDel, keysOf]
  | cons e rest ih =>
    rw [dictDel]
    split_ifs with he
    · simp [keysOf, List.erase_cons, he]
    · have ih' : List.map Prod.fst (dictDel rest k) = (List.map Prod.fst rest).erase k := ih
      simp [keysOf, List.erase_cons, he, ih']

theorem dictGet_del_self {d : List (PuzzlePiece × ℤ)} {k : PuzzlePiece}
    (hwf : DictWf d) (dflt : ℤ) : dictGet (dictDel d k) k dflt = dflt := by
  apply dictGet_eq_of_notMem
  rw [keysOf_del]
  intro hmem
  exact ((List.Nodup.mem_erase_iff hwf).mp hmem).1 rfl

theorem dictGet_del_ne (d : List (PuzzlePiece × ℤ)) (k k' : PuzzlePiece)
    (h : k' ≠ k) (dflt : ℤ) :
    dictGet (dictDel d k) k' dflt = dictGet d k' dflt := by
  induction d with
  | nil => rfl
  | cons e rest ih =>
    rw [dictDel]
    split_ifs with he
    · rw [dictGet_cons, if_neg (fun hh => h (he.symm.trans hh).symm)]
    · rw [dictGet_cons, dictGet_cons, ih]

theorem get_entry_mem {d : List (PuzzlePiece × ℤ)} {k : PuzzlePiece}
    (h : k ∈ keysOf d) : (k, dictGet d k 0) ∈ d := by
  induction d with
  | nil => simp [keysOf] at h
  | cons e rest ih =>
    rw [dictGet_cons]
    split_ifs with he
    · have hek : (k, e.2) = e := by rw [← he]
      rw [hek]
      exact List.mem_cons_self _ _
    · right
      apply ih
      simp only [keysOf, List.map_cons, List.mem_cons] at h
      rcases h with h | h
      · exact absurd h.symm he
      · exact h

theorem entry_eq_get {d : List (PuzzlePiece × ℤ)} {e : PuzzlePiece × ℤ}
    (hwf : DictWf d) (he : e ∈ d) : e.2 = dictGet d e.1 0 := by
  induction d with
  | nil => simp at he
  | cons x rest ih =>
    rw [dictGet_cons]
    rcases List.mem_cons.mp he with he | he
    · subst he
      rw [if_pos rfl]
    · split_ifs with hx
      · exfalso
        have : e.1 ∈ keysOf rest := List.mem_map_of_mem _ he
        rw [← hx] at this
        exact (List.nodup_cons.mp hwf).1 this
      · exact ih (List.nodup_cons.mp hwf).2 he

theorem sumCounts_nil : sumCounts [] = 0 := rfl

theorem sumCounts_cons (e : PuzzlePiece × ℤ) (rest : List (PuzzlePiece × ℤ)) :
    sumCounts (e :: rest) = e.2 + sumCounts rest := by
  simp [sumCounts]

theorem posCount_cons (e : PuzzlePiece × ℤ) (rest : List (PuzzlePiece × ℤ)) :
    posCount (e :: rest) = e.2.toNat + posCount rest := by
  simp [posCount]

theorem sumCounts_set_mem {d : List (PuzzlePiece × ℤ)} {k : PuzzlePiece} (v : ℤ)
    (h : k ∈ keysOf d) :
    sumCounts (dictSet d k v) + dictGet d k 0 = sumCounts d + v := by
  induction d with
  | nil => simp [keysOf] at h
  | cons e rest ih =>
    rw [dictSet, dictGet_cons]
    split_ifs with he
    · rw [sumCounts_cons, sumCounts_cons]
      ring
    · rw [sumCounts_cons, sumCounts_cons]
      have hk : k ∈ keysOf rest := by
        simp only [keysOf, List.map_cons, List.mem_cons] at h
        rcases h with h | h
        · exact absurd h.symm he
        · exact h
      have := ih hk
      omega

theorem sumCounts_set_notMem {d : List (PuzzlePiece × ℤ)} {k : PuzzlePiece} (v : ℤ)
    (h : k ∉ keysOf d) : sumCounts (dictSet d k v) = sumCounts d + v := by
  induction d with
  | nil => simp [dictSet, sumCounts]
  | cons e rest ih =>
    simp only [keysOf, List.map_cons, List.mem_cons] at h
    push_neg at h
    rw [dictSet, if_neg (fun hh => h.1 hh.symm), sumCounts_cons, sumCounts_cons,
      ih (by simpa [keysOf] using h.2)]
    ring

theorem sumCounts_del_mem {d : List (PuzzlePiece × ℤ)} {k : PuzzlePiece}
    (h : k ∈ keysOf d) :
    sumCounts (dictDel d k) + dictGet d k 0 = sumCounts d := by
  induction d with
  | nil => simp [keysOf] at h
  | cons e rest ih =>
    rw [dictDel, dictGet_cons]
    split_ifs with he
    · rw [sumCounts_cons]
      ring
    · rw [sumCounts_cons, sumCounts_cons]
      have hk : k ∈ keysOf rest := by
        simp only [keysOf, List.map_cons, List.mem_cons] at h
        rcases h with h | h
        · exact absurd h.symm he
        · exact h
      have := ih hk
      omega

theorem posCount_set_mem {d : List (PuzzlePiece × ℤ)} {k : PuzzlePiece} (v : ℤ)
    (h : k ∈ keysOf d) :
    posCount (dictSet d k v) + (dictGet d k 0).toNat = posCount d + v.toNat := by
  induction d with
  | nil => simp [keysOf] at h
  | cons e rest ih =>
    rw [dictSet, dictGet_cons]
    split_ifs with he
    · rw [posCount_cons, posCount_cons]
      omega
    · rw [posCount_cons, posCount_cons]
      have hk : k ∈ keysOf rest := by
        simp only [keysOf, List.map_cons, List.mem_cons] at h
        rcases h with h | h
        · exact absurd h.symm he
        · exact h
      have := ih hk
      omega

theorem posCount_del_mem {d : List (PuzzlePiece × ℤ)} {k : PuzzlePiece}
    (h : k ∈ keysOf d) :
    posCount (dictDel d k) + (dictGet d k 0).toNat = posCount d := by
  induction d with
  | nil => simp [keysOf] at h
  | cons e rest ih =>
    rw [dictDel, dictGet_cons]
    split_ifs with he
    · rw [posCount_cons]
      omega
    · rw [posCount_cons, posCount_cons]
      have hk : k ∈ keysOf rest := by
        simp only [keysOf, List.map_cons, List.mem_cons] at h
        rcases h with h | h
        · exact absurd h.symm he
        · exact h
      have := ih hk
      omega

theorem mem_dictSet_cases {d : List (PuzzlePiece × ℤ)} {k : PuzzlePiece} {v : ℤ}
    {e : PuzzlePiece × ℤ} (he : e ∈ dictSet d k v) : e = (k, v) ∨ e ∈ d := by
  induction d with
  | nil => simpa [dictSet] using he
  | cons x rest ih =>
    rw [dictSet] at he
    split_ifs at he with hx
    · rcases List.mem_cons.mp he with he | he
      · exact Or.inl he
      · exact Or.inr (List.mem_cons_of_mem _ he)
    · rcases List.mem_cons.mp he with he | he
      · exact Or.inr (he ▸ List.mem_cons_self _ _)
      · rcases ih he with h | h
        · exact Or.inl h
        · exact Or.inr (List.mem_cons_of_mem _ h)

theorem mem_dictDel_subset {d : List (PuzzlePiece × ℤ)} {k : PuzzlePiece}
    {e : PuzzlePiece × ℤ} (he : e ∈ dictDel d k) : e ∈ d := by
  induction d with
  | nil => simpa [dictDel] using he
  | cons x rest ih =>
    rw [dictDel] at he
    split_ifs at he with hx
    · exact List.mem_cons_of_mem _ he
    · rcases List.mem_cons.mp he with he | he
      · exact he ▸ List.mem_cons_self _ _
      · exact List.mem_cons_of_mem _ (ih he)

theorem AllPos_set {d : List (PuzzlePiece × ℤ)} {k : PuzzlePiece} {v : ℤ}
    (hA : AllPos d) (hv : 1 ≤ v) : AllPos (dictSet d k v) := by
  intro e he
  rcases mem_dictSet_cases he with rfl | he
  · exact hv
  · exact hA e he

theorem AllPos_del {d : List (PuzzlePiece × ℤ)} {k : PuzzlePiece}
    (hA : AllPos d) : AllPos (dictDel d k) := fun e he => hA e (mem_dictDel_subset he)

theorem DictWf_set {d : List (PuzzlePiece × ℤ)} {k : PuzzlePiece} {v : ℤ}
    (hwf : DictWf d) : DictWf (dictSet d k v) := by
  by_cases h : k ∈ keysOf d
  · unfold DictWf
    rw [keysOf_set_mem v h]
    exact hwf
  · unfold DictWf
    rw [keysOf_set_notMem v h]
    simp only [List.nodup_append, List.nodup_cons, List.not_mem_nil,
      not_false_iff, List.nodup_nil, and_true, true_and]
    constructor
    · exact hwf
    · intro a ha hb
      simp only [List.mem_singleton] at hb
      exact h (hb ▸ ha)

theorem DictWf_del {d : List (PuzzlePiece × ℤ)} {k : PuzzlePiece}
    (hwf : DictWf d) : DictWf (dictDel d k) := by
  unfold DictWf
  rw [keysOf_del]
  exact List.Nodup.erase k hwf

theorem sumCounts_eq_keys_sum {d : List (PuzzlePiece × ℤ)} (hwf : DictWf d) :
    sumCounts d = ((keysOf d).map fun k => dictGet d k 0).sum := by
  induction d with
  | nil => rfl
  | cons e rest ih =>
    simp only [DictWf, keysOf, List.map_cons, List.nodup_cons] at hwf
    obtain ⟨hk, hrest⟩ := hwf
    rw [sumCounts_cons]
    simp only [keysOf, List.map_cons, List.sum_cons]
    rw [dictGet_cons, if_pos rfl]
    congr 1
    have hmap : ((rest.map Prod.fst).map fun k => dictGet (e :: rest) k 0)
        = (rest.map Prod.fst).map fun k => dictGet rest k 0 := by
      apply List.map_congr_left
      intro k hkmem
      rw [dictGet_cons, if_neg (fun hh : e.1 = k => hk (by rw [hh]; exact hkmem))]
    rw [hmap, ih hrest]
    rfl

theorem posCount_eq_keys_sum {d : List (PuzzlePiece × ℤ)} (hwf : DictWf d) :
    posCount d = ((keysOf d).map fun k => (dictGet d k 0).toNat).sum := by
  induction d with
  | nil => rfl
  | cons e rest ih =>
    simp only [DictWf, keysOf, List.map_cons, List.nodup_cons] at hwf
    obtain ⟨hk, hrest⟩ := hwf
    rw [posCount_cons]
    simp only [keysOf, List.map_cons, List.sum_cons]
    rw [dictGet_cons, if_pos rfl]
    congr 1
    have hmap : ((rest.map Prod.fst).map fun k => (dictGet (e :: rest) k 0).toNat)
        = (rest.map Prod.fst).map fun k => (dictGet rest k 0).toNat := by
      apply List.map_congr_left
      intro k hkmem
      rw [dictGet_cons, if_neg (fun hh : e.1 = k => hk (by rw [hh]; exact hkmem))]
    rw [hmap, ih hrest]
    rfl

theorem DictEquiv.refl (d : List (PuzzlePiece × ℤ)) : DictEquiv d d :=
  ⟨List.Perm.refl _, fun _ => rfl⟩

theorem DictEquiv.trans {a b c : List (PuzzlePiece × ℤ)} (h1 : DictEquiv a b)
    (h2 : DictEquiv b c) : DictEquiv a c :=
  ⟨h1.1.trans h2.1, fun k => (h1.2 k).trans (h2.2 k)⟩

theorem DictWf_of_equiv {d d' : List (PuzzlePiece × ℤ)} (he : DictEquiv d' d)
    (hwf : DictWf d) : DictWf d' :=
  he.1.nodup_iff.mpr hwf

theorem sumCounts_of_equiv {d d' : List (PuzzlePiece × ℤ)} (hwf : DictWf d)
    (hwf' : DictWf d') (he : DictEquiv d' d) : sumCounts d' = sumCounts d := by
  rw [sumCounts_eq_keys_sum hwf, sumCounts_eq_keys_sum hwf']
  have hmap : (keysOf d').map (fun k => dictGet d' k 0)
      = (keysOf d').map fun k => dictGet d k 0 :=
    List.map_congr_left fun k _ => he.2 k
  rw [hmap]
  exact (he.1.map _).sum_eq

theorem posCount_of_equiv {d d' : List (PuzzlePiece × ℤ)} (hwf : DictWf d)
    (hwf' : DictWf d') (he : DictEquiv d' d) : posCount d' = posCount d := by
  rw [posCount_eq_keys_sum hwf, posCount_eq_keys_sum hwf']
  have hmap : (keysOf d').map (fun k => (dictGet d' k 0).toNat)
      = (keysOf d').map fun k => (dictGet d k 0).toNat :=
    List.map_congr_left fun k _ => by rw [he.2 k]
  rw [hmap]
  exact (he.1.map _).sum_eq

theorem AllPos_of_equiv {d d' : List (PuzzlePiece × ℤ)} (hwf' : DictWf d')
    (he : DictEquiv d' d) (hA : AllPos d) : AllPos d' := by
  intro e hmem
  rw [entry_eq_get hwf' hmem, he.2 e.1]
  have hkey : e.1 ∈ keysOf d := he.1.mem_iff.mp (List.mem_map_of_mem _ hmem)
  exact hA _ (get_entry_mem hkey)

/-- Consecutive step counters `a+1, a+2, …, a+n`. -/
def stepsFrom (a n : ℕ) : List ℕ :=
  (List.range n).map fun i => a + i + 1

theorem stepsFrom_zero (a : ℕ) : stepsFrom a 0 = [] := rfl

theorem stepsFrom_succ_cons (a n : ℕ) :
    stepsFrom a (n + 1) = (a + 1) :: stepsFrom (a + 1) n := by
  unfold stepsFrom
  rw [List.range_succ_eq_map]
  simp only [List.map_cons, List.map_map]
  refine congrArg₂ List.cons (by omega) ?_
  apply List.map_congr_left
  intro i _
  simp only [Function.comp_apply]
  omega

theorem stepsFrom_append (a n m : ℕ) :
    stepsFrom a n ++ stepsFrom (a + n) m = stepsFrom a (n + m) := by
  induction n generalizing a with
  | zero => simpa [stepsFrom_zero] using rfl
  | succ n ih =>
    have e1 : a + (n + 1) = (a + 1) + n := by omega
    rw [stepsFrom_succ_cons, List.cons_append, e1, ih]
    have e2 : n + 1 + m = (n + m) + 1 := by omega
    rw [e2, stepsFrom_succ_cons]

theorem chain_lt_stepsFrom (a n : ℕ) : List.Chain' (· < ·) (stepsFrom a n) := by
  induction n generalizing a with
  | zero => simp [stepsFrom_zero]
  | succ n ih =>
    rw [stepsFrom_succ_cons]
    cases n with
    | zero => simp [stepsFrom_zero]
    | succ m =>
      rw [stepsFrom_succ_cons, List.chain'_cons]
      exact ⟨by omega, by rw [← stepsFrom_succ_cons]; exact ih (a + 1)⟩

theorem stepsFrom_getLast (a n : ℕ) (h : n ≠ 0) :
    (stepsFrom a n).getLast? = some (a + n) := by
  obtain ⟨m, rfl⟩ : ∃ m, n = m + 1 := ⟨n - 1, by omega⟩
  rw [← stepsFrom_append a m 1, show stepsFrom (a + m) 1 = [a + m + 1] from rfl,
    List.getLast?_concat]
  exact congrArg some (by omega)

/-- The solver-state invariant maintained throughout the search: a
well-formed board, unique dict keys, and positive remaining counts. -/
def StInv (st : SolverState) : Prop :=
  WfBoard st.board ∧ DictWf st.remaining ∧ AllPos st.remaining

instance (st : SolverState) : Decidable (StInv st) := by
  unfold StInv; infer_instance

/-- Full specification of one (sub)run of the backtracking generator,
relative to its entry state. -/
def BTSpec (st : SolverState) (r : BTResult) : Prop :=
  r.2.2.step_count = st.step_count + r.1.length ∧
  r.1.map Event.step_count = stepsFrom st.step_count r.1.length ∧
  (∀ e ∈ r.1, (e.placed_pieces.length : ℤ) + sumCounts e.remaining_pieces
    = (st.placed.length : ℤ) + sumCounts st.remaining) ∧
  (∀ e ∈ r.1, AllPos e.remaining_pieces) ∧
  (r.2.1 = true →
    ∃ evs₀ ev, r.1 = evs₀ ++ [ev] ∧ ev.type = EventType.solved ∧
      ∀ e ∈ evs₀, e.type = EventType.place ∨ e.type = EventType.remove) ∧
  (r.2.1 = false →
    (∀ e ∈ r.1, e.type = EventType.place ∨ e.type = EventType.remove) ∧
    r.2.2.board = st.board ∧ r.2.2.placed = st.placed ∧ StInv r.2.2 ∧
    DictEquiv r.2.2.remaining st.remaining)

/-- Effect of the solver's count-decrement
(`remaining[piece] = count - 1; del if zero`) on the remaining dict. -/
theorem remDec_spec {d : List (PuzzlePiece × ℤ)} {k : PuzzlePiece} {c : ℤ}
    (hwf : DictWf d) (hA : AllPos d) (hget : dictGet d k 0 = c) (hc : 1 ≤ c) :
    DictWf (remDec d k c) ∧ AllPos (remDec d k c) ∧
    posCount (remDec d k c) + 1 = posCount d ∧
    sumCounts (remDec d k c) + 1 = sumCounts d ∧
    dictGet (remDec d k c) k 0 = c - 1 ∧
    (∀ k', k' ≠ k → dictGet (remDec d k c) k' 0 = dictGet d k' 0) ∧
    List.Perm (keysOf (remDec d k c))
      (if c = 1 then (keysOf d).erase k else keysOf d) := by
  have hkmem : k ∈ keysOf d := mem_keys_of_dictGet_ne (by omega)
  have hget1 : dictGet (dictSet d k (c - 1)) k 0 = c - 1 := dictGet_set_self d k (c - 1)
  by_cases hc1 : c = 1
  · have hrem2 : remDec d k c = dictDel d k := by
      unfold remDec
      rw [if_pos (by rw [hget1]; omega)]
      exact dictDel_dictSet d k (c - 1)
    rw [hrem2]
    refine ⟨DictWf_del hwf, AllPos_del hA, ?_, ?_, ?_, ?_, ?_⟩
    · have := posCount_del_mem hkmem
      rw [hget] at this
      omega
    · have := sumCounts_del_mem hkmem
      rw [hget] at this
      omega
    · rw [dictGet_del_self hwf]
      omega
    · intro k' hk'
      exact dictGet_del_ne d k k' hk' 0
    · rw [if_pos hc1, keysOf_del]
  · have hrem2 : remDec d k c = dictSet d k (c - 1) := by
      unfold remDec
      rw [if_neg (by rw [hget1]; omega)]
    rw [hrem2]
    refine ⟨DictWf_set hwf, AllPos_set hA (by omega), ?_, ?_, hget1, ?_, ?_⟩
    · have := posCount_set_mem (c - 1) hkmem
      rw [hget] at this
      omega
    · have := sumCounts_set_mem (c - 1) hkmem
      rw [hget] at this
      omega
    · intro k' hk'
      exact dictGet_set_ne d k k' (c - 1) hk' 0
    · rw [if_neg hc1, keysOf_set_mem (c - 1) hkmem]

/-- Effect of the solver's count-restore
(`remaining[p] = remaining.get(p, 0) + 1`) after a failed branch. -/
theorem remRestore_spec {d d2 : List (PuzzlePiece × ℤ)} {k : PuzzlePiece} {c : ℤ}
    (hwf : DictWf d) (hget : dictGet d k 0 = c) (hc : 1 ≤ c)
    (hwf2 : DictWf d2)
    (hget2 : dictGet d2 k 0 = c - 1)
    (hne2 : ∀ k', k' ≠ k → dictGet d2 k' 0 = dictGet d k' 0)
    (hkeys2 : List.Perm (keysOf d2) (if c = 1 then (keysOf d).erase k else keysOf d)) :
    DictEquiv (dictSet d2 k (dictGet d2 k 0 + 1)) d ∧
    DictWf (dictSet d2 k (dictGet d2 k 0 + 1)) := by
  have hkmem : k ∈ keysOf d := mem_keys_of_dictGet_ne (by omega)
  have hgetr : ∀ k', dictGet (dictSet d2 k (dictGet d2 k 0 + 1)) k' 0
      = dictGet d k' 0 := by
    intro k'
    by_cases hk' : k' = k
    · subst hk'
      rw [dictGet_set_self, hget2, hget]
      omega
    · rw [dictGet_set_ne d2 k k' _ hk', hne2 k' hk']
  have hkeysr : List.Perm (keysOf (dictSet d2 k (dictGet d2 k 0 + 1))) (keysOf d) := by
    by_cases hc1 : c = 1
    · rw [if_pos hc1] at hkeys2
      have hknot : k ∉ keysOf d2 := by
        intro hmem
        have := hkeys2.mem_iff.mp hmem
        exact ((List.Nodup.mem_erase_iff hwf).mp this).1 rfl
      rw [keysOf_set_notMem _ hknot]
      have h1 : List.Perm (keysOf d2 ++ [k]) ((keysOf d).erase k ++ [k]) :=
        hkeys2.append_right [k]
      have h2 : List.Perm ((keysOf d).erase k ++ [k]) (k :: (keysOf d).erase k) :=
        List.perm_append_singleton k _
      have h3 : List.Perm (k :: (keysOf d).erase k) (keysOf d) :=
        (List.perm_cons_erase hkmem).symm
      exact (h1.trans h2).trans h3
    · rw [if_neg hc1] at hkeys2
      have hkmem2 : k ∈ keysOf d2 := hkeys2.mem_iff.mpr hkmem
      rw [keysOf_set_mem _ hkmem2]
      exact hkeys2
  refine ⟨⟨hkeysr, hgetr⟩, ?_⟩
  exact hkeysr.nodup_iff.mpr hwf

theorem BTSpec_fail_id (st : SolverState) (hInv : StInv st) :
    BTSpec st ([], false, st) := by
  refine ⟨by simp, by simp [stepsFrom_zero], by simp, by simp, by simp, ?_⟩
  intro _
  exact ⟨by simp, rfl, rfl, hInv, DictEquiv.refl _⟩

theorem tryOrients_spec (recur : SolverState → BTResult) (fuel : ℕ)
    (Hrec : ∀ st1, StInv st1 → posCount st1.remaining < fuel →
      BTSpec st1 (recur st1))
    (piece : PuzzlePiece) (count : ℤ) (cell : Cell) :
    ∀ (os : List Shape) (st : SolverState), StInv st →
      posCount st.remaining ≤ fuel → dictGet st.remaining piece 0 = count →
      1 ≤ count → BTSpec st (tryOrients recur piece count cell os st) := by
  intro os
  induction os with
  | nil =>
    intro st hInv _ _ _
    exact BTSpec_fail_id st hInv
  | cons o os ih =>
    intro st hInv hfuel hget hc
    obtain ⟨hWb, hWd, hAp⟩ := hInv
    rw [tryOrients]
    set origin : Cell := (cell.1 - (lexMinCell o).1, cell.2 - (lexMinCell o).2)
    by_cases hcan : can_place_shape st.board o origin = true
    · rw [if_pos hcan]
      obtain ⟨D1, D2, D3, D4, D5, D6, D7⟩ := remDec_spec hWd hAp hget hc
      set st1 : SolverState :=
        ⟨placeCells st.board o origin, st.placed ++ [(o, origin, piece)],
          remDec st.remaining piece count, st.step_count + 1⟩ with hst1
      have hInv1 : StInv st1 := ⟨wf_placeCells ⟨hWb.1, hWb.2.1, hWb.2.2.1,
        hWb.2.2.2.1, hWb.2.2.2.2.1, hWb.2.2.2.2.2.1, hWb.2.2.2.2.2.2.1,
        hWb.2.2.2.2.2.2.2⟩ hcan, D1, D2⟩
      have hpos1 : posCount st1.remaining < fuel := by
        show posCount (remDec st.remaining piece count) < fuel
        omega
      have S1 := Hrec st1 hInv1 hpos1
      rcases hrec : recur st1 with ⟨evs, res, st2⟩
      rw [hrec] at S1
      obtain ⟨S1step, S1map, S1cons, S1pos, S1succ, S1fail⟩ := S1
      dsimp only at S1step S1map S1cons S1pos S1succ S1fail
      simp only [hrec]
      cases res with
      | true =>
        rw [if_pos rfl]
        obtain ⟨evs₀, sev, hsplit, hsev, h₀⟩ := S1succ rfl
        refine ⟨?_, ?_, ?_, ?_, ?_, by simp⟩
        · simp only [List.length_cons]
          omega
        · simp only [List.map_cons, List.length_cons]
          rw [S1map]
          show _ = stepsFrom st.step_count (evs.length + 1)
          rw [stepsFrom_succ_cons]
          rfl
        · intro e he
          rcases List.mem_cons.mp he with rfl | he
          · show ((st.placed ++ [(o, origin, piece)]).length : ℤ)
                + sumCounts (remDec st.remaining piece count)
                = (st.placed.length : ℤ) + sumCounts st.remaining
            simp only [List.length_append, List.length_cons, List.length_nil]
            push_cast
            omega
          · rw [S1cons e he]
            simp only [List.length_append, List.length_cons, List.length_nil]
            push_cast
            omega
        · intro e he
          rcases List.mem_cons.mp he with rfl | he
          · exact D2
          · exact S1pos e he
        · intro _
          refine ⟨mkEvent .place st1 :: evs₀, sev, by simp [hsplit], hsev, ?_⟩
          intro e he
          rcases List.mem_cons.mp he with rfl | he
          · exact Or.inl rfl
          · exact h₀ e he
      | false =>
        rw [if_neg (by simp)]
        obtain ⟨S1types, hb2, hp2, hInv2, hEq2⟩ := S1fail rfl
        have hlast : st2.placed.getLast? = some (o, origin, piece) := by
          rw [hp2]
          show ((st.placed ++ [(o, origin, piece)]).getLast?) = _
          exact List.getLast?_concat _
        rw [hlast]
        have hdrop : st2.placed.dropLast = st.placed := by
          rw [hp2]
          show (st.placed ++ [(o, origin, piece)]).dropLast = st.placed
          exact List.dropLast_concat
        have hb3 : removeCells st2.board o origin = st.board := by
          rw [hb2]
          show removeCells (placeCells st.board o origin) o origin = st.board
          exact place_remove_cells_eq hWb hcan
        have hget2 : dictGet st2.remaining piece 0 = count - 1 := by
          rw [hEq2.2 piece]
          exact D5
        have hRes := remRestore_spec hWd hget hc hInv2.2.1 hget2
          (fun k' hk' => by rw [hEq2.2 k']; exact D6 k' hk')
          (hEq2.1.trans D7)
        set rem3 := dictSet st2.remaining piece (dictGet st2.remaining piece 0 + 1)
          with hrem3
        set st3 : SolverState :=
          ⟨removeCells st2.board o origin, st2.placed.dropLast, rem3,
            st2.step_count + 1⟩ with hst3
        have hInv3 : StInv st3 := by
          refine ⟨?_, hRes.2, AllPos_of_equiv hRes.2 hRes.1 hAp⟩
          show WfBoard (removeCells st2.board o origin)
          rw [hb3]
          exact hWb
        have hfuel3 : posCount st3.remaining ≤ fuel := by
          show posCount rem3 ≤ fuel
          rw [posCount_of_equiv hWd hRes.2 hRes.1]
          exact hfuel
        have hget3 : dictGet st3.remaining piece 0 = count := by
          show dictGet rem3 piece 0 = count
          rw [hRes.1.2 piece]
          exact hget
        have S2 := ih st3 hInv3 hfuel3 hget3 hc
        rcases htry : tryOrients recur piece count cell os st3 with ⟨evs2, res2, st4⟩
        rw [htry] at S2
        obtain ⟨S2step, S2map, S2cons, S2pos, S2succ, S2fail⟩ := S2
        dsimp only at S2step S2map S2cons S2pos S2succ S2fail
        have hst2step : st2.step_count = st.step_count + 1 + evs.length := S1step
        simp only [htry]
        refine ⟨?_, ?_, ?_, ?_, ?_, ?_⟩
        · simp only [List.length_cons, List.length_append]
          omega
        · simp only [List.map_cons, List.map_append, List.length_cons,
            List.length_append, mkEvent]
          rw [S1map, S2map]
          have hL : evs.length + 1 + (evs2.length + 1)
              = evs.length + (evs2.length + 1) + 1 := by omega
          rw [hL]
          show (st.step_count + 1) :: (stepsFrom (st.step_count + 1) evs.length ++
              (st2.step_count + 1) :: stepsFrom (st2.step_count + 1) evs2.length)
            = stepsFrom st.step_count (evs.length + (evs2.length + 1) + 1)
          have e1 : st2.step_count + 1 = (st.step_count + 1 + evs.length) + 1 := by
            omega
          rw [e1, ← stepsFrom_succ_cons, stepsFrom_append, ← stepsFrom_succ_cons]
        · intro e he
          have hconst3 : (st3.placed.length : ℤ) + sumCounts st3.remaining
              = (st.placed.length : ℤ) + sumCounts st.remaining := by
            show ((st2.placed.dropLast).length : ℤ) + sumCounts rem3 = _
            rw [hdrop, sumCounts_of_equiv hWd hRes.2 hRes.1]
          rcases List.mem_cons.mp he with rfl | he
          · show ((st.placed ++ [(o, origin, piece)]).length : ℤ)
                + sumCounts (remDec st.remaining piece count)
                = (st.placed.length : ℤ) + sumCounts st.remaining
            simp only [List.length_append, List.length_cons, List.length_nil]
            push_cast
            omega
          · rcases List.mem_append.mp he with he | he
            · rw [S1cons e he]
              simp only [List.length_append, List.length_cons, List.length_nil]
              push_cast
              omega
            · rcases List.mem_cons.mp he with rfl | he
              · exact hconst3
              · rw [S2cons e he]
                exact hconst3
        · intro e he
          rcases List.mem_cons.mp he with rfl | he
          · exact D2
          · rcases List.mem_append.mp he with he | he
            · exact S1pos e he
            · rcases List.mem_cons.mp he with rfl | he
              · exact AllPos_of_equiv hRes.2 hRes.1 hAp
              · exact S2pos e he
        · intro hres2
          obtain ⟨evs₀, sev, hsplit, hsev, h₀⟩ := S2succ hres2
          refine ⟨mkEvent .place st1 :: evs ++ mkEvent .remove st3 :: evs₀, sev,
            ?_, hsev, ?_⟩
          · rw [hsplit]
            simp [List.cons_append, List.append_assoc]
          · intro e he
            rcases List.mem_cons.mp he with rfl | he
            · exact Or.inl rfl
            · rcases List.mem_append.mp he with he | he
              · exact S1types e he
              · rcases List.mem_cons.mp he with rfl | he
                · exact Or.inr rfl
                · exact h₀ e he
        · intro hres2
          obtain ⟨S2types, hb4, hp4, hInv4, hEq4⟩ := S2fail hres2
          refine ⟨?_, ?_, ?_, hInv4, ?_⟩
          · intro e he
            rcases List.mem_cons.mp he with rfl | he
            · exact Or.inl rfl
            · rcases List.mem_append.mp he with he | he
              · exact S1types e he
              · rcases List.mem_cons.mp he with rfl | he
                · exact Or.inr rfl
                · exact S2types e he
          · rw [hb4]
            exact hb3
          · rw [hp4]
            exact hdrop
          · exact hEq4.trans hRes.1
    · rw [if_neg hcan]
      exact ih st ⟨hWb, hWd, hAp⟩ hfuel hget hc

theorem tryPieces_spec (recur : SolverState → BTResult) (fuel : ℕ)
    (Hrec : ∀ st1, StInv st1 → posCount st1.remaining < fuel →
      BTSpec st1 (recur st1)) (cell : Cell) :
    ∀ (pts : List PuzzlePiece) (st : SolverState), StInv st →
      posCount st.remaining ≤ fuel → BTSpec st (tryPieces recur cell pts st) := by
  intro pts
  induction pts with
  | nil =>
    intro st hInv _
    exact BTSpec_fail_id st hInv
  | cons piece rest ih =>
    intro st hInv hfuel
    simp only [tryPieces]
    by_cases hcnt : dictGet st.remaining piece 0 ≤ 0
    · rw [if_pos hcnt]
      exact ih st hInv hfuel
    · rw [if_neg hcnt]
      push_neg at hcnt
      have S1 := tryOrients_spec recur fuel Hrec piece (dictGet st.remaining piece 0)
        cell piece.orients st hInv hfuel rfl (by omega)
      rcases htry : tryOrients recur piece (dictGet st.remaining piece 0) cell
        piece.orients st with ⟨evs, res, st2⟩
      rw [htry] at S1
      obtain ⟨S1step, S1map, S1cons, S1pos, S1succ, S1fail⟩ := S1
      dsimp only at S1step S1map S1cons S1pos S1succ S1fail
      simp only [htry]
      cases res with
      | true =>
        rw [if_pos rfl]
        exact ⟨S1step, S1map, S1cons, S1pos, fun _ => S1succ rfl, by simp⟩
      | false =>
        rw [if_neg (by simp)]
        obtain ⟨S1types, hb2, hp2, hInv2, hEq2⟩ := S1fail rfl
        have hfuel2 : posCount st2.remaining ≤ fuel := by
          rw [posCount_of_equiv hInv.2.1 hInv2.2.1 hEq2]
          exact hfuel
        have S2 := ih st2 hInv2 hfuel2
        rcases htry2 : tryPieces recur cell rest st2 with ⟨evs2, res2, st3⟩
        rw [htry2] at S2
        obtain ⟨S2step, S2map, S2cons, S2pos, S2succ, S2fail⟩ := S2
        dsimp only at S2step S2map S2cons S2pos S2succ S2fail
        simp only [htry2]
        have hconst2 : (st2.placed.length : ℤ) + sumCounts st2.remaining
            = (st.placed.length : ℤ) + sumCounts st.remaining := by
          rw [hp2, sumCounts_of_equiv hInv.2.1 hInv2.2.1 hEq2]
        refine ⟨?_, ?_, ?_, ?_, ?_, ?_⟩
        · simp only [List.length_append]
          omega
        · simp only [List.map_append, List.length_append]
          rw [S1step] at S2map
          rw [S1map, S2map, stepsFrom_append]
        · intro e he
          rcases List.mem_append.mp he with he | he
          · exact S1cons e he
          · rw [S2cons e he]
            exact hconst2
        · intro e he
          rcases List.mem_append.mp he with he | he
          · exact S1pos e he
          · exact S2pos e he
        · intro hres
          obtain ⟨evs₀, sev, hsplit, hsev, h₀⟩ := S2succ hres
          exact ⟨evs ++ evs₀, sev, by rw [hsplit, List.append_assoc], hsev,
            fun e he => (List.mem_append.mp he).elim (S1types e) (h₀ e)⟩
        · intro hres
          obtain ⟨S2types, hb3, hp3, hInv3, hEq3⟩ := S2fail hres
          refine ⟨fun e he => (List.mem_append.mp he).elim (S1types e) (S2types e),
            ?_, ?_, hInv3, hEq3.trans hEq2⟩
          · rw [hb3, hb2]
          · rw [hp3, hp2]

theorem backtrack_spec (pts : List PuzzlePiece) :
    ∀ (fuel : ℕ) (st : SolverState), StInv st → posCount st.remaining < fuel →
      BTSpec st (backtrack pts fuel st) := by
  intro fuel
  induction fuel with
  | zero =>
    intro st _ h
    omega
  | succ fuel ih =>
    intro st hInv hfuel
    simp only [backtrack]
    rcases hfe : find_next_empty st.board with - | cell
    · by_cases he : st.remaining.isEmpty
      · rw [if_pos he]
        refine ⟨by simp, ?_, ?_, ?_, ?_, by simp⟩
        · show List.map Event.step_count [mkEvent EventType.solved _]
            = stepsFrom st.step_count 1
          rfl
        · intro e he'
          rcases List.mem_singleton.mp he' with rfl
          rfl
        · intro e he'
          rcases List.mem_singleton.mp he' with rfl
          exact hInv.2.2
        · intro _
          exact ⟨[], _, rfl, rfl, by simp⟩
      · rw [if_neg he]
        exact BTSpec_fail_id st hInv
    · exact tryPieces_spec (backtrack pts fuel) fuel
        (fun st1 h1 h2 => ih st1 h1 h2) cell pts st hInv (by omega)

/-- An event is terminal when its type is `solved` or `no_solution`. -/
def isTerminal (e : Event) : Bool :=
  match e.type with
  | .solved => true
  | .noSolution => true
  | _ => false

/-- The event sequence holds exactly one terminal event and it is the last
event of the sequence. -/
def TerminalOnceLast (evs : List Event) : Prop :=
  evs.countP isTerminal = 1 ∧
  ∃ ev, evs.getLast? = some ev ∧ isTerminal ev = true

/-- Step counters strictly increase from each event to the next, except
that a final `no_solution` event may repeat the previous counter. -/
def stepRel (a b : Event) : Prop :=
  a.step_count < b.step_count ∨
    (b.type = EventType.noSolution ∧ a.step_count = b.step_count)

/-- Step counters strictly increase across consecutive events. -/
def StrictSteps (evs : List Event) : Prop :=
  List.Chain' (fun a b => a.step_count < b.step_count) evs

/-- Executable check for `StrictSteps`. -/
def strictStepsB : List Event → Bool
  | [] => true
  | [_] => true
  | a :: b :: rest =>
      decide (a.step_count < b.step_count) && strictStepsB (b :: rest)

theorem strictStepsB_iff (evs : List Event) :
    strictStepsB evs = true ↔ StrictSteps evs := by
  induction evs with
  | nil => simp [strictStepsB, StrictSteps]
  | cons a rest ih =>
    cases rest with
    | nil => simp [strictStepsB, StrictSteps]
    | cons b rest2 =>
      rw [strictStepsB]
      unfold StrictSteps at ih ⊢
      rw [List.chain'_cons, Bool.and_eq_true, decide_eq_true_iff, ih]

instance (evs : List Event) : Decidable (StrictSteps evs) :=
  decidable_of_iff _ (strictStepsB_iff evs)

/-- Step counters strictly increase across consecutive events except that
a final `no_solution` event repeats its predecessor's counter. -/
def StepsProper (evs : List Event) : Prop :=
  List.Chain' stepRel evs

/-- Every yielded event conserves the total piece count — placements plus
remaining counts equal the caller-supplied total — and stores only
positive remaining counts. -/
def ConservedAll (pieces : List (PuzzlePiece × ℤ)) (evs : List Event) : Prop :=
  ∀ e ∈ evs, (e.placed_pieces.length : ℤ) + sumCounts e.remaining_pieces
    = sumCounts pieces ∧ AllPos e.remaining_pieces

theorem isTerminal_false_of_pr {e : Event}
    (h : e.type = EventType.place ∨ e.type = EventType.remove) :
    isTerminal e = false := by
  unfold isTerminal
  rcases h with h | h <;> rw [h]

theorem isTerminal_of_solved {e : Event} (h : e.type = EventType.solved) :
    isTerminal e = true := by
  unfold isTerminal
  rw [h]

theorem countP_terminal_concat (l : List Event) (ev : Event)
    (hl : ∀ e ∈ l, isTerminal e = false) (hev : isTerminal ev = true) :
    (l ++ [ev]).countP isTerminal = 1 := by
  rw [List.countP_append]
  have h0 : l.countP isTerminal = 0 :=
    List.countP_eq_zero.mpr (by intro a ha; simp [hl a ha])
  rw [h0]
  simp [List.countP_cons, hev]

theorem chain_lt_of_stepsFrom {l : List Event} {a : ℕ}
    (h : l.map Event.step_count = stepsFrom a l.length) :
    List.Chain' (fun x y => x.step_count < y.step_count) l := by
  have hc := chain_lt_stepsFrom a l.length
  rw [← h] at hc
  exact (List.chain'_map Event.step_count).mp hc

/-- Master specification of `solve_backtracking` for a well-formed board
and a well-formed positive piece multiset: the event sequence has exactly
one terminal event, placed last; step counters increase strictly except
into a final `no_solution` event, which repeats the last counter; and
every event conserves the total piece count with only positive remaining
counts stored. -/
theorem solve_spec (pieces : List (PuzzlePiece × ℤ)) (board : GameBoard)
    (hwf : WfBoard board) (hdwf : DictWf pieces) (hpos : AllPos pieces) :
    TerminalOnceLast (solve_backtracking pieces board) ∧
    StepsProper (solve_backtracking pieces board) ∧
    ConservedAll pieces (solve_backtracking pieces board) := by
  unfold StepsProper
  simp only [solve_backtracking]
  by_cases hemp : pieces.isEmpty
  · rw [if_pos hemp]
    refine ⟨⟨rfl, ⟨_, rfl, rfl⟩⟩, List.chain'_singleton _, ?_⟩
    intro e he
    rw [List.mem_singleton] at he
    subst he
    exact ⟨by simp, hpos⟩
  · rw [if_neg hemp]
    have S := backtrack_spec (sortPiecesDesc (List.map Prod.fst pieces))
      (posCount pieces + 1) ⟨board, [], pieces, 0⟩ ⟨hwf, hdwf, hpos⟩
      (Nat.lt_succ_self _)
    rcases hbt : backtrack (sortPiecesDesc (List.map Prod.fst pieces))
      (posCount pieces + 1) ⟨board, [], pieces, 0⟩ with ⟨evs, res, st2⟩
    rw [hbt] at S
    obtain ⟨Sstep, Smap, Scons, Spos, Ssucc, Sfail⟩ := S
    dsimp only at Sstep Smap Scons Spos Ssucc Sfail
    simp only [hbt]
    cases res with
    | true =>
      rw [if_pos rfl]
      obtain ⟨evs₀, sev, hsplit, hsev, h₀⟩ := Ssucc rfl
      refine ⟨⟨?_, ?_⟩, ?_, ?_⟩
      · rw [hsplit]
        exact countP_terminal_concat evs₀ sev
          (fun e he => isTerminal_false_of_pr (h₀ e he))
          (isTerminal_of_solved hsev)
      · rw [hsplit]
        exact ⟨sev, List.getLast?_concat _, isTerminal_of_solved hsev⟩
      · exact List.Chain'.imp (fun a b h => Or.inl h) (chain_lt_of_stepsFrom Smap)
      · intro e he
        refine ⟨?_, Spos e he⟩
        have hc := Scons e he
        simpa using hc
    | false =>
      rw [if_neg Bool.false_ne_true]
      obtain ⟨Stypes, hb, hp, hInv2, hEq⟩ := Sfail rfl
      refine ⟨⟨?_, ?_⟩, ?_, ?_⟩
      · exact countP_terminal_concat evs (mkEvent EventType.noSolution st2)
          (fun e he => isTerminal_false_of_pr (Stypes e he)) rfl
      · exact ⟨mkEvent EventType.noSolution st2, List.getLast?_concat _, rfl⟩
      · rw [List.chain'_append]
        refine ⟨List.Chain'.imp (fun a b h => Or.inl h)
          (chain_lt_of_stepsFrom Smap), List.chain'_singleton _, ?_⟩
        intro x hx y hy
        rw [List.head?_cons, Option.mem_some_iff] at hy
        subst hy
        rw [Option.mem_def] at hx
        have hne : evs ≠ [] := by
          intro h
          subst h
          simp at hx
        have hlen : evs.length ≠ 0 := fun h => hne (List.length_eq_zero.mp h)
        have hx2 : some x.step_count = some (0 + evs.length) := by
          rw [← stepsFrom_getLast 0 evs.length hlen, ← Smap, List.getLast?_map,
            hx]
          rfl
        have hx3 : x.step_count = evs.length := by
          injection hx2 with hx2
          omega
        right
        refine ⟨rfl, ?_⟩
        show x.step_count = st2.step_count
        omega
      · intro e he
        rcases List.mem_append.mp he with he | he
        · refine ⟨?_, Spos e he⟩
          have hc := Scons e he
          simpa using hc
        · rw [List.mem_singleton] at he
          subst he
          constructor
          · show (st2.placed.length : ℤ) + sumCounts st2.remaining = sumCounts pieces
            rw [hp, sumCounts_of_equiv hdwf hInv2.2.1 hEq]
            simp
          · exact hInv2.2.2

/-- Claim C1: for every well-formed board and every well-formed piece
multiset with positive counts, the event sequence produced by
`solve_backtracking` contains exactly one terminal event, of type `solved`
or `no_solution` — never both and never neither — and that terminal event
is the last event of the sequence. -/
theorem claim_C1 (pieces : List (PuzzlePiece × ℤ)) (board : GameBoard)
    (hwf : WfBoard board) (hdwf : DictWf pieces) (hpos : AllPos pieces) :
    TerminalOnceLast (solve_backtracking pieces board) :=
  (solve_spec pieces board hwf hdwf hpos).1

theorem claim_C1_witness :
    TerminalOnceLast (solve_backtracking [(pieceOf monoShape, 1)] board2x1) :=
  claim_C1 _ _ (by decide) (by decide) (by decide)

/-- Claim C2 counterexample: on the 2×1 board with a single monomino
supplied, the run fails and the final `no_solution` event repeats the step
counter of the preceding `remove` event (the counter is not incremented on
the `no_solution` yield), so step counters are not strictly increasing
across the full sequence. -/
theorem claim_C2_counterexample :
    ¬ StrictSteps (solve_backtracking [(pieceOf monoShape, 1)] board2x1) := by
  decide

/-- Claim C2 (amended): across the full event sequence produced by
`solve_backtracking` for any well-formed board and positive piece
multiset, each event's step counter is strictly greater than the
preceding event's, except that a final `no_solution` event carries the
same step counter as the event preceding it. -/
theorem claim_C2_amended (pieces : List (PuzzlePiece × ℤ)) (board : GameBoard)
    (hwf : WfBoard board) (hdwf : DictWf pieces) (hpos : AllPos pieces) :
    StepsProper (solve_backtracking pieces board) :=
  (solve_spec pieces board hwf hdwf hpos).2.1

theorem claim_C2_amended_witness :
    StepsProper (solve_backtracking [(pieceOf monoShape, 1)] board2x1) :=
  claim_C2_amended _ _ (by decide) (by decide) (by decide)

/-- Claim C8: for every board, when the supplied piece multiset is empty,
`solve_backtracking` yields exactly one event, of type `solved`, carrying
step count 0 (with the entry board snapshot, no placements and the empty
remaining dict). -/
theorem claim_C8 (board : GameBoard) :
    solve_backtracking [] board = [⟨EventType.solved, board, [], [], 0⟩] := rfl

/-- Claim C10: in every event yielded by `solve_backtracking` on a
well-formed board with a well-formed positive piece multiset, the length
of the placed-pieces stack plus the sum of the counts in the remaining
dict equals the total count supplied by the caller, and every stored
remaining count is ≥ 1 (zero-count entries are deleted, not stored). -/
theorem claim_C10 (pieces : List (PuzzlePiece × ℤ)) (board : GameBoard)
    (hwf : WfBoard board) (hdwf : DictWf pieces) (hpos : AllPos pieces) :
    ConservedAll pieces (solve_backtracking pieces board) :=
  (solve_spec pieces board hwf hdwf hpos).2.2

theorem claim_C10_witness :
    ConservedAll [(pieceOf monoShape, 1)]
      (solve_backtracking [(pieceOf monoShape, 1)] blockedBoard1) :=
  claim_C10 _ _ (by decide) (by decide) (by decide)

/-- Vertical I-tromino test fixture: same area as `shapeL` but a distinct
canonical shape. -/
def shapeI : Finset Cell :=
  {((0 : ℤ), (0 : ℤ)), ((1 : ℤ), (0 : ℤ)), ((2 : ℤ), (0 : ℤ))}

/-- Empty 3-wide 2-tall board fixture. -/
def board3x2 : GameBoard :=
  ⟨3, 2, [[none, none, none], [none, none, none]], ∅⟩

/-- The two lists hold the pieces of each area class in the same order:
`sorted(..., key=..., reverse=True)` in CPython is a stable sort, so
equal-area pieces keep their relative (insertion) order. -/
def StableByArea (l l2 : List PuzzlePiece) : Prop :=
  ∀ n : ℕ, l2.filter (fun p => decide (p.area = n))
    = l.filter (fun p => decide (p.area = n))

theorem insertByAreaDesc_perm (x : PuzzlePiece) :
    ∀ m, List.Perm (insertByAreaDesc x m) (x :: m) := by
  intro m
  induction m with
  | nil => exact List.Perm.refl _
  | cons y ys ih =>
    rw [insertByAreaDesc]
    by_cases h : y.area ≤ x.area
    · rw [if_pos h]
    · rw [if_neg h]
      exact (ih.cons y).trans (List.Perm.swap x y ys)

theorem sortPiecesDesc_perm (l : List PuzzlePiece) :
    List.Perm (sortPiecesDesc l) l := by
  induction l with
  | nil => exact List.Perm.refl _
  | cons a l ih =>
    have h1 : sortPiecesDesc (a :: l) = insertByAreaDesc a (sortPiecesDesc l) := rfl
    rw [h1]
    exact (insertByAreaDesc_perm a _).trans (ih.cons a)

theorem pairwise_insertByAreaDesc (x : PuzzlePiece) :
    ∀ m, List.Pairwise (fun a b => b.area ≤ a.area) m →
      List.Pairwise (fun a b => b.area ≤ a.area) (insertByAreaDesc x m) := by
  intro m
  induction m with
  | nil =>
    intro _
    simp [insertByAreaDesc]
  | cons y ys ih =>
    intro hp
    rw [List.pairwise_cons] at hp
    obtain ⟨hy, hys⟩ := hp
    rw [insertByAreaDesc]
    by_cases h : y.area ≤ x.area
    · rw [if_pos h, List.pairwise_cons]
      refine ⟨?_, List.pairwise_cons.mpr ⟨hy, hys⟩⟩
      intro z hz
      rcases List.mem_cons.mp hz with rfl | hz
      · exact h
      · exact le_trans (hy z hz) h
    · rw [if_neg h, List.pairwise_cons]
      refine ⟨?_, ih hys⟩
      intro z hz
      have hz2 := (insertByAreaDesc_perm x ys).mem_iff.mp hz
      rcases List.mem_cons.mp hz2 with rfl | hz2
      · omega
      · exact hy z hz2

theorem sortPiecesDesc_pairwise (l : List PuzzlePiece) :
    List.Pairwise (fun a b => b.area ≤ a.area) (sortPiecesDesc l) := by
  induction l with
  | nil => exact List.Pairwise.nil
  | cons a l ih => exact pairwise_insertByAreaDesc a _ ih

theorem filter_insertByAreaDesc (x : PuzzlePiece) (n : ℕ) :
    ∀ m, (insertByAreaDesc x m).filter (fun p => decide (p.area = n))
      = (if x.area = n then [x] else [])
        ++ m.filter (fun p => decide (p.area = n)) := by
  intro m
  induction m with
  | nil =>
    by_cases h : x.area = n <;> simp [insertByAreaDesc, h]
  | cons y ys ih =>
    rw [insertByAreaDesc]
    by_cases h : y.area ≤ x.area
    · rw [if_pos h]
      by_cases hx : x.area = n <;> simp [List.filter_cons, hx]
    · rw [if_neg h]
      by_cases hx : x.area = n
      · have hy : ¬ y.area = n := by omega
        simp [List.filter_cons, hx, hy, ih]
      · simp [List.filter_cons, hx, ih]

theorem sortPiecesDesc_stable (l : List PuzzlePiece) :
    StableByArea l (sortPiecesDesc l) := by
  intro n
  induction l with
  | nil => rfl
  | cons a l ih =>
    have h1 : sortPiecesDesc (a :: l) = insertByAreaDesc a (sortPiecesDesc l) := rfl
    rw [h1, filter_insertByAreaDesc, ih, List.filter_cons]
    by_cases h : a.area = n <;> simp [h]

/-- Claim C6 counterexample: `pieceOf shapeI` and `pieceOf shapeL` have
equal areas and the canonical shape of the I-piece orders strictly before
that of the L-piece, yet the solver's candidate list keeps the
insertion-ordered L-piece first, and on an empty 3×2 board with both
supplied the first yielded event indeed places the L-piece: equal-area
ties are broken by dict insertion order, not by canonical-shape order. -/
theorem claim_C6_counterexample :
    (pieceOf shapeI).area = (pieceOf shapeL).area ∧
    shapeLt (pieceOf shapeI).shape (pieceOf shapeL).shape = true ∧
    sortPiecesDesc [pieceOf shapeL, pieceOf shapeI]
      = [pieceOf shapeL, pieceOf shapeI] ∧
    (solve_backtracking [(pieceOf shapeL, 1), (pieceOf shapeI, 1)]
        board3x2).head?.map
      (fun e => e.placed_pieces.map fun t => t.2.2) = some [pieceOf shapeL] := by
  decide

/-- Claim C6 (amended): at every empty target cell the search engine
iterates candidate pieces in a fixed deterministic order — sorted by
descending area with ties among equal-area pieces broken by the insertion
order of the remaining-pieces dict (Python's `sorted` is stable), not by
canonical-shape order — and skips any piece whose remaining count is
≤ 0. -/
theorem claim_C6_amended (l : List PuzzlePiece) (recur : SolverState → BTResult)
    (cell : Cell) (piece : PuzzlePiece) (rest : List PuzzlePiece)
    (st : SolverState) (hskip : dictGet st.remaining piece 0 ≤ 0) :
    List.Perm (sortPiecesDesc l) l ∧
    List.Pairwise (fun a b => b.area ≤ a.area) (sortPiecesDesc l) ∧
    StableByArea l (sortPiecesDesc l) ∧
    tryPieces recur cell (piece :: rest) st = tryPieces recur cell rest st := by
  refine ⟨sortPiecesDesc_perm l, sortPiecesDesc_pairwise l,
    sortPiecesDesc_stable l, ?_⟩
  simp only [tryPieces]
  rw [if_pos hskip]

theorem claim_C6_amended_witness :
    List.Perm (sortPiecesDesc [pieceOf shapeL, pieceOf shapeI])
      [pieceOf shapeL, pieceOf shapeI] ∧
    List.Pairwise (fun a b => b.area ≤ a.area)
      (sortPiecesDesc [pieceOf shapeL, pieceOf shapeI]) ∧
    StableByArea [pieceOf shapeL, pieceOf shapeI]
      (sortPiecesDesc [pieceOf shapeL, pieceOf shapeI]) ∧
    tryPieces (fun st => ([], false, st)) (0, 0) [pieceOf monoShape]
        ⟨board2x1, [], [], 0⟩
      = tryPieces (fun st => ([], false, st)) (0, 0) [] ⟨board2x1, [], [], 0⟩ :=
  claim_C6_amended _ _ _ _ _ _ (by decide)

end Woodster
